import Mathlib

/-!
# Verification of the PatPlacer image-processor core

A shallow embedding, in Lean 4, of the pixel-pipeline functions of the
PatPlacer image processor (`ImageProcessor` class): palette matching
(`findClosestPaletteColor`, `resolveColor`), quantization and dithering
(`applySimpleQuantization`, `_applyOrderedDither`, `_applyErrorDiffusion`),
block resampling (`resampleDominant`), region merging (`simplifyRegions`),
the LAB memo cache (`_getLab`) and the LUV/XYZ colour conversions.

Modelling conventions:
* JavaScript numbers are embedded as exact rationals (`ℚ`).  The pipeline
  functions below use only field operations, comparisons, `Math.min/max`,
  truncating shifts and `Math.floor`/`Math.round`, so the rational embedding
  is exact except where noted in a definition's comment.
* The transcendental conversions (`Math.pow` with exponent 2.4, `Math.cbrt`
  in `_rgbToLab` / `_rgbToOklab`) have no exact rational form; they enter the
  embedding as explicit function parameters (`ColorConv`), so every theorem
  quantifies over them.
* For the one claim about NaN behaviour, IEEE special values are modelled
  explicitly by the `JSNum` type (finite values again idealised as `ℚ`).
* `Uint8ClampedArray` rasters are embedded as lists (or index functions) of
  RGBA quadruples; the raster invariant `length = 4·W·H` of the host is a
  hypothesis where a theorem needs it.
* Mutable buffers become explicit state (functions `ℕ → _` updated
  pointwise); the caches of the processor instance become explicit
  association lists threaded through the functions that touch them.
-/

namespace PatPlacer

/-- `Math.min(255, Math.max(0, v))`: the clamp used throughout the source. -/
def clampByte (v : ℚ) : ℚ := min 255 (max 0 v)

/-- Truncation toward zero, the `ToInt32` rounding JavaScript applies to the
operand of a bitwise shift (all shifted values in this file fit in 32 bits). -/
def ratTrunc (q : ℚ) : ℤ := if 0 ≤ q then ⌊q⌋ else -⌊-q⌋

/-- JavaScript `x >> 8`: truncate to an integer, then arithmetic right shift,
i.e. floor-division of the truncated value by 256 (`ℤ` division rounds toward
`-∞` for a positive divisor, matching the arithmetic shift). -/
def jsShr8 (q : ℚ) : ℤ := ratTrunc q / 256

/-- JavaScript `x % y` (`fmod`): `x - y * trunc(x / y)`, for `y ≠ 0`. -/
def jsRem (x y : ℚ) : ℚ := x - y * (ratTrunc (x / y) : ℚ)

/-- JavaScript `Math.round` on a finite value rounds half-way cases toward
`+∞`, which is `⌊x + 1/2⌋`. -/
def jsRound (q : ℚ) : ℤ := ⌊q + 1/2⌋

theorem ratTrunc_zero : ratTrunc 0 = 0 := by simp [ratTrunc]

theorem ratTrunc_nonneg {q : ℚ} (h : 0 ≤ q) : 0 ≤ ratTrunc q := by
  simp only [ratTrunc, if_pos h]
  exact Int.floor_nonneg.mpr h

theorem jsShr8_zero : jsShr8 0 = 0 := by simp [jsShr8, ratTrunc_zero]

theorem jsShr8_nonneg {q : ℚ} (h : 0 ≤ q) : 0 ≤ jsShr8 q := by
  have := ratTrunc_nonneg h
  unfold jsShr8
  omega

theorem jsShr8_pos {q : ℚ} (h : 512 ≤ q) : 0 < jsShr8 q := by
  have h0 : (0:ℚ) ≤ q := le_trans (by norm_num) h
  have h512 : (512:ℤ) ≤ ratTrunc q := by
    simp only [ratTrunc, if_pos h0]
    exact Int.le_floor.mpr (by exact_mod_cast h)
  unfold jsShr8
  omega

/-- `jsRem` stays strictly within `(-y, y)` for a positive modulus `y`. -/
theorem jsRem_lt {x y : ℚ} (hy : 0 < y) : jsRem x y < y ∧ -y < jsRem x y := by
  have hxy : y * (x / y) = x := by field_simp
  unfold jsRem ratTrunc
  by_cases h : 0 ≤ x / y
  · simp only [if_pos h]
    have h1 : (⌊x / y⌋ : ℚ) ≤ x / y := Int.floor_le _
    have h2 : x / y < ⌊x / y⌋ + 1 := Int.lt_floor_add_one _
    have e1 := mul_le_mul_of_nonneg_left h1 (le_of_lt hy)
    have e2 := mul_lt_mul_of_pos_left h2 hy
    rw [hxy] at e1 e2
    constructor <;> nlinarith
  · simp only [if_neg h]
    push_neg at h
    have h1 : (⌊-(x / y)⌋ : ℚ) ≤ -(x / y) := Int.floor_le _
    have h2 : -(x / y) < ⌊-(x / y)⌋ + 1 := Int.lt_floor_add_one _
    have e1 := mul_le_mul_of_nonneg_left h1 (le_of_lt hy)
    have e2 := mul_lt_mul_of_pos_left h2 hy
    rw [mul_neg, hxy] at e1 e2
    push_cast
    constructor <;> nlinarith

/-- For `|x| < 6`, JavaScript `x % 6` is `x` itself. -/
theorem jsRem_small {x : ℚ} (h1 : -6 < x) (h2 : x < 6) : jsRem x 6 = x := by
  have h6 : (0:ℚ) < 6 := by norm_num
  have ht : ratTrunc (x / 6) = 0 := by
    unfold ratTrunc
    by_cases h : 0 ≤ x / 6
    · simp only [if_pos h]
      rw [Int.floor_eq_zero_iff]
      exact ⟨h, by rw [div_lt_one h6]; exact h2⟩
    · simp only [if_neg h]
      push_neg at h
      have : ⌊-(x / 6)⌋ = 0 := by
        rw [Int.floor_eq_zero_iff]
        refine ⟨by linarith, ?_⟩
        have : -1 < x / 6 := by
          rw [show (-1:ℚ) = -6 / 6 by norm_num, div_lt_div_iff_of_pos_right h6]
          exact h1
        linarith
      simp [this]
  unfold jsRem
  rw [ht]
  push_cast
  ring

/-- An RGB triple; channels are ideal JavaScript numbers (`ℚ`). -/
@[ext]
structure Rgb where
  r : ℚ
  g : ℚ
  b : ℚ
deriving DecidableEq, Repr

/-- `_rgbToHsv(r, g, b)`: scale to `[0,1]`, hue from the dominant channel
(`%6` on the red branch), saturation `delta/max`, value `max`. -/
def rgbToHsv (c : Rgb) : ℚ × ℚ × ℚ :=
  let r := c.r / 255
  let g := c.g / 255
  let b := c.b / 255
  let mx := max r (max g b)
  let mn := min r (min g b)
  let delta := mx - mn
  let s : ℚ := if mx = 0 then 0 else delta / mx
  let v := mx
  let h : ℚ :=
    if delta = 0 then 0
    else
      let h0 : ℚ :=
        if mx = r then jsRem ((g - b) / delta) 6
        else if mx = g then (b - r) / delta + 2
        else (r - g) / delta + 4
      let h1 := h0 * 60
      if h1 < 0 then h1 + 360 else h1
  (h, s, v)

/-- Mathematical left inverse of `rgbToHsv` (a proof device, not source code):
reconstructs the channels from hue sector, saturation and value. -/
def hsvRecover (t : ℚ × ℚ × ℚ) : Rgb :=
  let h := t.1
  let s := t.2.1
  let v := t.2.2
  if s = 0 then ⟨255 * v, 255 * v, 255 * v⟩
  else
    let delta := s * v
    let mn := v - delta
    if h ≤ 60 then ⟨255 * v, 255 * (mn + h / 60 * delta), 255 * mn⟩
    else if h ≤ 120 then ⟨255 * (mn + (2 - h / 60) * delta), 255 * v, 255 * mn⟩
    else if h ≤ 180 then ⟨255 * mn, 255 * v, 255 * (mn + (h / 60 - 2) * delta)⟩
    else if h ≤ 240 then ⟨255 * mn, 255 * (mn + (4 - h / 60) * delta), 255 * v⟩
    else if h ≤ 300 then ⟨255 * (mn + (h / 60 - 4) * delta), 255 * mn, 255 * v⟩
    else ⟨255 * v, 255 * mn, 255 * (mn + (6 - h / 60) * delta)⟩

theorem hsvRecover_rgbToHsv (c : Rgb) (hr : 0 ≤ c.r) (hg : 0 ≤ c.g)
    (hb : 0 ≤ c.b) : hsvRecover (rgbToHsv c) = c := by
  obtain ⟨cr, cg, cb⟩ := c
  simp only at hr hg hb
  have h255 : (0:ℚ) < 255 := by norm_num
  set r := cr / 255 with hrdef
  set g := cg / 255 with hgdef
  set b := cb / 255 with hbdef
  have hr0 : 0 ≤ r := by positivity
  have hg0 : 0 ≤ g := by positivity
  have hb0 : 0 ≤ b := by positivity
  set mx := max r (max g b) with hmx
  set mn := min r (min g b) with hmn
  have hmxr : r ≤ mx := le_max_left _ _
  have hmxg : g ≤ mx := le_trans (le_max_left _ _) (le_max_right _ _)
  have hmxb : b ≤ mx := le_trans (le_max_right _ _) (le_max_right _ _)
  have hmnr : mn ≤ r := min_le_left _ _
  have hmng : mn ≤ g := le_trans (min_le_right _ _) (min_le_left _ _)
  have hmnb : mn ≤ b := le_trans (min_le_right _ _) (min_le_right _ _)
  have hmn0 : 0 ≤ mn := le_min hr0 (le_min hg0 hb0)
  have hback : cr = 255 * r ∧ cg = 255 * g ∧ cb = 255 * b := by
    refine ⟨?_, ?_, ?_⟩ <;> [rw [hrdef]; rw [hgdef]; rw [hbdef]] <;> field_simp
  by_cases hdz : mx - mn = 0
  · -- delta = 0: all channels coincide with mx
    have hrmx : r = mx := le_antisymm hmxr (by
      rcases max_cases g b with ⟨h1, _⟩ | ⟨h1, _⟩ <;>
        rcases max_cases r (max g b) with ⟨h2, _⟩ | ⟨h2, _⟩ <;>
          simp only [hmx] <;> linarith [hmnr, hmng, hmnb])
    have hgmx : g = mx := le_antisymm hmxg (by linarith)
    have hbmx : b = mx := le_antisymm hmxb (by linarith)
    have hs : rgbToHsv ⟨cr, cg, cb⟩ = (0, 0, mx) := by
      simp only [rgbToHsv, ← hrdef, ← hgdef, ← hbdef, ← hmx, ← hmn, hdz,
        if_pos rfl]
      by_cases hmx0 : mx = 0 <;> simp [hmx0, hdz]
    rw [hs]
    simp only [hsvRecover, if_pos rfl]
    exact Rgb.ext (by simp; linarith [hback.1]) (by simp; linarith [hback.2.1])
      (by simp; linarith [hback.2.2])
  · -- delta ≠ 0
    have hmnmx : mn ≤ mx := le_trans hmnr hmxr
    have hdelta : 0 < mx - mn :=
      lt_of_le_of_ne (sub_nonneg.mpr hmnmx) (fun h => hdz h.symm)
    have hmx0 : 0 < mx := lt_of_le_of_lt hmn0 (by linarith)
    have hmxne : mx ≠ 0 := ne_of_gt hmx0
    have hsne : ¬((mx - mn) / mx = 0) := div_ne_zero hdz hmxne
    have hcancel : (mx - mn) / mx * mx = mx - mn := div_mul_cancel₀ _ hmxne
    obtain ⟨hcr, hcg, hcb⟩ := hback
    by_cases hA : mx = r
    · -- red is the dominant channel
      have hxle : (g - b) / (mx - mn) ≤ 1 := (div_le_one hdelta).mpr (by linarith)
      have hxge : -1 ≤ (g - b) / (mx - mn) := by
        rw [le_div_iff₀ hdelta]; linarith
      have hrem : jsRem ((g - b) / (mx - mn)) 6 = (g - b) / (mx - mn) :=
        jsRem_small (by linarith) (by linarith)
      by_cases hgb : b ≤ g
      · -- hue in [0, 60]
        have hmnb' : mn = b := by
          rw [hmn, min_eq_right hgb, min_eq_right (hA ▸ hmxb)]
        have hx0 : 0 ≤ (g - b) / (mx - mn) :=
          div_nonneg (by linarith) (le_of_lt hdelta)
        have hnn : ¬((g - b) / (mx - mn) * 60 < 0) := by push_neg; linarith
        have hhsvA : rgbToHsv ⟨cr, cg, cb⟩ =
            ((g - b) / (mx - mn) * 60, (mx - mn) / mx, mx) := by
          simp only [rgbToHsv, ← hrdef, ← hgdef, ← hbdef, ← hmx, ← hmn]
          rw [if_neg hdz, if_pos hA, hrem, if_neg hmxne, if_neg hnn]
        rw [hhsvA]
        simp only [hsvRecover]
        rw [if_neg hsne, if_pos (show (g - b) / (mx - mn) * 60 ≤ 60 by linarith)]
        refine Rgb.ext ?_ ?_ ?_
        · simp only
          rw [hcr, hA]
        · simp only
          rw [hcg, hcancel, mul_div_cancel_right₀ _ (show (60:ℚ) ≠ 0 by norm_num),
            div_mul_cancel₀ _ hdz, hmnb']
          ring
        · simp only
          rw [hcb, hcancel, hmnb']
          ring
      · -- hue in [300, 360)
        push_neg at hgb
        have hmng' : mn = g := by
          rw [hmn, min_eq_left (le_of_lt hgb), min_eq_right (hA ▸ hmxg)]
        have hxneg : (g - b) / (mx - mn) < 0 :=
          div_neg_of_neg_of_pos (by linarith) hdelta
        have hneg : (g - b) / (mx - mn) * 60 < 0 := by linarith
        have hhsvA : rgbToHsv ⟨cr, cg, cb⟩ =
            ((g - b) / (mx - mn) * 60 + 360, (mx - mn) / mx, mx) := by
          simp only [rgbToHsv, ← hrdef, ← hgdef, ← hbdef, ← hmx, ← hmn]
          rw [if_neg hdz, if_pos hA, hrem, if_neg hmxne, if_pos hneg]
        by_cases hx1 : (g - b) / (mx - mn) = -1
        · -- x = -1: hue is exactly 300, b attains the max and g the min
          have hgb' : b - g = mx - mn := by
            have := (div_eq_iff (ne_of_gt hdelta)).mp hx1
            linarith
          have hbmx' : b = mx := by linarith [hmxb, hmng']
          rw [hx1] at hhsvA
          norm_num at hhsvA
          rw [hhsvA]
          simp only [hsvRecover]
          rw [if_neg hsne, if_neg (by norm_num), if_neg (by norm_num),
            if_neg (by norm_num), if_neg (by norm_num), if_pos (by norm_num)]
          refine Rgb.ext ?_ ?_ ?_
          · simp only
            rw [hcr, hcancel, hA]
            ring
          · simp only
            rw [hcg, hcancel, hmng']
            ring
          · simp only
            rw [hcb, hbmx']
        · -- hue strictly above 300
          have hxgt : -1 < (g - b) / (mx - mn) := lt_of_le_of_ne hxge (Ne.symm hx1)
          rw [hhsvA]
          simp only [hsvRecover]
          rw [if_neg hsne, if_neg (by push_neg; linarith),
            if_neg (by push_neg; linarith), if_neg (by push_neg; linarith),
            if_neg (by push_neg; linarith), if_neg (by push_neg; linarith)]
          refine Rgb.ext ?_ ?_ ?_
          · simp only
            rw [hcr, hA]
          · simp only
            rw [hcg, hcancel, hmng']
            ring
          · simp only
            rw [hcb, hcancel]
            rw [show (6 - ((g - b) / (mx - mn) * 60 + 360) / 60) * (mx - mn) =
              -((g - b) / (mx - mn) * (mx - mn)) by ring, div_mul_cancel₀ _ hdz,
              hmng']
            ring
    · -- red is not dominant
      have hrlt : r < mx := lt_of_le_of_ne hmxr (fun h => hA h.symm)
      by_cases hB : mx = g
      · -- green is the dominant channel; hue in (60, 180]
        have hxle : (b - r) / (mx - mn) ≤ 1 := (div_le_one hdelta).mpr (by linarith)
        have hxgt : -1 < (b - r) / (mx - mn) := by
          rw [lt_div_iff₀ hdelta]; linarith
        have hhsvB : rgbToHsv ⟨cr, cg, cb⟩ =
            (((b - r) / (mx - mn) + 2) * 60, (mx - mn) / mx, mx) := by
          simp only [rgbToHsv, ← hrdef, ← hgdef, ← hbdef, ← hmx, ← hmn]
          rw [if_neg hdz, if_neg hA, if_pos hB, if_neg hmxne,
            if_neg (by push_neg; linarith)]
        rw [hhsvB]
        simp only [hsvRecover]
        rw [if_neg hsne, if_neg (by push_neg; linarith)]
        by_cases hbr : b ≤ r
        · -- hue in (60, 120]
          have hbg2 : b ≤ g := hB ▸ hmxb
          have hmnb' : mn = b := by
            rw [hmn, min_eq_right hbg2, min_eq_right hbr]
          have hxle0 : (b - r) / (mx - mn) ≤ 0 := by
            rw [div_le_iff₀ hdelta]; linarith
          rw [if_pos (by linarith)]
          refine Rgb.ext ?_ ?_ ?_
          · simp only
            rw [hcr, hcancel]
            rw [show (2 - ((b - r) / (mx - mn) + 2) * 60 / 60) * (mx - mn) =
              -((b - r) / (mx - mn) * (mx - mn)) by ring, div_mul_cancel₀ _ hdz,
              hmnb']
            ring
          · simp only
            rw [hcg, hB]
          · simp only
            rw [hcb, hcancel, hmnb']
            ring
        · -- hue in (120, 180]
          push_neg at hbr
          have hbg2 : b ≤ g := hB ▸ hmxb
          have hmnr' : mn = r := by
            rw [hmn, min_eq_right hbg2, min_eq_left (le_of_lt hbr)]
          have hxpos : 0 < (b - r) / (mx - mn) := div_pos (by linarith) hdelta
          rw [if_neg (by push_neg; linarith), if_pos (by linarith)]
          refine Rgb.ext ?_ ?_ ?_
          · simp only
            rw [hcr, hcancel, hmnr']
            ring
          · simp only
            rw [hcg, hB]
          · simp only
            rw [hcb, hcancel]
            rw [show (((b - r) / (mx - mn) + 2) * 60 / 60 - 2) * (mx - mn) =
              (b - r) / (mx - mn) * (mx - mn) by ring, div_mul_cancel₀ _ hdz,
              hmnr']
            ring
      · -- blue is the dominant channel; hue in (180, 300)
        have hbmx' : mx = b := by
          rcases max_choice r (max g b) with h | h
          · exact absurd h.symm (fun h2 => hA h2.symm)
          · rcases max_choice g b with h2 | h2
            · rw [hmx, h, h2] at hB ⊢
              exact absurd rfl hB
            · rw [hmx, h, h2]
        have hglt : g < mx := lt_of_le_of_ne hmxg (fun h => hB h.symm)
        have hxlt : (r - g) / (mx - mn) < 1 := by
          rw [div_lt_one hdelta]; linarith
        have hxgt : -1 < (r - g) / (mx - mn) := by
          rw [lt_div_iff₀ hdelta]; linarith
        have hhsvC : rgbToHsv ⟨cr, cg, cb⟩ =
            (((r - g) / (mx - mn) + 4) * 60, (mx - mn) / mx, mx) := by
          simp only [rgbToHsv, ← hrdef, ← hgdef, ← hbdef, ← hmx, ← hmn]
          rw [if_neg hdz, if_neg hA, if_neg hB, if_neg hmxne,
            if_neg (by push_neg; linarith)]
        rw [hhsvC]
        simp only [hsvRecover]
        rw [if_neg hsne, if_neg (by push_neg; linarith),
          if_neg (by push_neg; linarith), if_neg (by push_neg; linarith)]
        by_cases hrg : r ≤ g
        · -- hue in (180, 240]
          have hgb2 : g ≤ b := le_of_lt (hbmx' ▸ hglt)
          have hmnr' : mn = r := by
            rw [hmn, min_eq_left hgb2, min_eq_left hrg]
          have hxle0 : (r - g) / (mx - mn) ≤ 0 := by
            rw [div_le_iff₀ hdelta]; linarith
          rw [if_pos (by linarith)]
          refine Rgb.ext ?_ ?_ ?_
          · simp only
            rw [hcr, hcancel, hmnr']
            ring
          · simp only
            rw [hcg, hcancel]
            rw [show (4 - ((r - g) / (mx - mn) + 4) * 60 / 60) * (mx - mn) =
              -((r - g) / (mx - mn) * (mx - mn)) by ring, div_mul_cancel₀ _ hdz,
              hmnr']
            ring
          · simp only
            rw [hcb, hbmx']
        · -- hue in (240, 300)
          push_neg at hrg
          have hgb2 : g ≤ b := le_of_lt (hbmx' ▸ hglt)
          have hmng' : mn = g := by
            rw [hmn, min_eq_left hgb2, min_eq_right (le_of_lt hrg)]
          have hxpos : 0 < (r - g) / (mx - mn) := div_pos (by linarith) hdelta
          rw [if_neg (by push_neg; linarith), if_pos (by linarith)]
          refine Rgb.ext ?_ ?_ ?_
          · simp only
            rw [hcr, hcancel]
            rw [show (((r - g) / (mx - mn) + 4) * 60 / 60 - 4) * (mx - mn) =
              (r - g) / (mx - mn) * (mx - mn) by ring, div_mul_cancel₀ _ hdz,
              hmng']
            ring
          · simp only
            rw [hcg, hcancel, hmng']
            ring
          · simp only
            rw [hcb, hbmx']

/-- `rgbToHsv` is injective on nonnegative channels. -/
theorem rgbToHsv_inj {c1 c2 : Rgb} (h1 : 0 ≤ c1.r ∧ 0 ≤ c1.g ∧ 0 ≤ c1.b)
    (h2 : 0 ≤ c2.r ∧ 0 ≤ c2.g ∧ 0 ≤ c2.b) (heq : rgbToHsv c1 = rgbToHsv c2) :
    c1 = c2 :=
  calc c1 = hsvRecover (rgbToHsv c1) :=
        (hsvRecover_rgbToHsv c1 h1.1 h1.2.1 h1.2.2).symm
    _ = hsvRecover (rgbToHsv c2) := by rw [heq]
    _ = c2 := hsvRecover_rgbToHsv c2 h2.1 h2.2.1 h2.2.2

/-- The hue produced by `_rgbToHsv` always lies in `[0, 360)`. -/
theorem rgbToHsv_h_range (c : Rgb) :
    0 ≤ (rgbToHsv c).1 ∧ (rgbToHsv c).1 < 360 := by
  obtain ⟨cr, cg, cb⟩ := c
  simp only [rgbToHsv]
  set r := cr / 255 with hrdef
  set g := cg / 255 with hgdef
  set b := cb / 255 with hbdef
  set mx := max r (max g b) with hmx
  set mn := min r (min g b) with hmn
  have hmxr : r ≤ mx := le_max_left _ _
  have hmxg : g ≤ mx := le_trans (le_max_left _ _) (le_max_right _ _)
  have hmxb : b ≤ mx := le_trans (le_max_right _ _) (le_max_right _ _)
  have hmnr : mn ≤ r := min_le_left _ _
  have hmng : mn ≤ g := le_trans (min_le_right _ _) (min_le_left _ _)
  have hmnb : mn ≤ b := le_trans (min_le_right _ _) (min_le_right _ _)
  have hb60 : ∀ h0 : ℚ, -6 < h0 → h0 < 6 →
      0 ≤ (if h0 * 60 < 0 then h0 * 60 + 360 else h0 * 60) ∧
        (if h0 * 60 < 0 then h0 * 60 + 360 else h0 * 60) < 360 := by
    intro h0 hlo hhi
    by_cases hn : h0 * 60 < 0
    · rw [if_pos hn]
      constructor <;> linarith
    · rw [if_neg hn]
      push_neg at hn
      constructor <;> linarith
  by_cases hdz : mx - mn = 0
  · rw [if_pos hdz]
    norm_num
  · rw [if_neg hdz]
    have hdelta : 0 < mx - mn :=
      lt_of_le_of_ne (sub_nonneg.mpr (le_trans hmnr hmxr)) (fun h => hdz h.symm)
    by_cases hA : mx = r
    · rw [if_pos hA]
      obtain ⟨hl, hr2⟩ := jsRem_lt (x := (g - b) / (mx - mn)) (by norm_num : (0:ℚ) < 6)
      exact hb60 _ hr2 hl
    · rw [if_neg hA]
      by_cases hB : mx = g
      · rw [if_pos hB]
        have h1 : (b - r) / (mx - mn) ≤ 1 := (div_le_one hdelta).mpr (by linarith)
        have h2 : -1 ≤ (b - r) / (mx - mn) := by
          rw [le_div_iff₀ hdelta]; linarith
        exact hb60 _ (by linarith) (by linarith)
      · rw [if_neg hB]
        have h1 : (r - g) / (mx - mn) ≤ 1 := (div_le_one hdelta).mpr (by linarith)
        have h2 : -1 ≤ (r - g) / (mx - mn) := by
          rw [le_div_iff₀ hdelta]; linarith
        exact hb60 _ (by linarith) (by linarith)

/-!
## Palette matching: `findClosestPaletteColor`

The `lab` and `oklab` branches call the transcendental conversions
`_getLab` (memoised `_rgbToLab`) and `_rgbToOklab`, and the chroma penalty
calls `Math.sqrt`; these are IEEE-754 `pow`/`cbrt`/`sqrt` computations with no
exact rational embedding, so they are abstracted as the fields of a
`ColorConv` and every theorem quantifies over them.
-/

/-- Abstract stand-ins for `_rgbToOklab`, `_getLab` (= `_rgbToLab` memoised on
a consistent cache) and `Math.sqrt`. -/
structure ColorConv where
  oklabF : ℚ → ℚ → ℚ → ℚ × ℚ × ℚ
  labF : ℚ → ℚ → ℚ → ℚ × ℚ × ℚ
  sqrtF : ℚ → ℚ

/-- Chroma-penalty options of `findClosestPaletteColor`
(`enableChromaPenalty`, `chromaPenaltyWeight`, defaults `false` / `0.15`). -/
structure ChromaOptions where
  enableChromaPenalty : Bool := false
  chromaPenaltyWeight : ℚ := 0.15
deriving DecidableEq

/-- Radicand of the legacy weighted-RGB distance of `findClosestPaletteColor`
(`algorithm === 'rgb'`).  The source takes `Math.sqrt` of this value and uses
the result only in strict comparisons; `Math.sqrt` is strictly monotone on
nonnegative arguments, so the scan below compares radicands directly. -/
def rgbDistSq (t p : Rgb) : ℚ :=
  let rmean := (p.r + t.r) / 2
  let rdiff := p.r - t.r
  let gdiff := p.g - t.g
  let bdiff := p.b - t.b
  ((jsShr8 ((512 + rmean) * rdiff * rdiff) : ℤ) : ℚ) + 4 * gdiff * gdiff +
    ((jsShr8 ((767 - rmean) * bdiff * bdiff) : ℤ) : ℚ)

/-- The HSV distance of `findClosestPaletteColor` (`algorithm === 'hsv'`):
circular hue distance normalised by 360, combined quadratically with the
saturation and value differences. -/
def hsvDist (t p : Rgb) : ℚ :=
  let a := rgbToHsv t
  let c := rgbToHsv p
  let dh := min |a.1 - c.1| (360 - |a.1 - c.1|) / 360
  dh * dh + (a.2.1 - c.2.1) ^ 2 + (a.2.2 - c.2.2) ^ 2

/-- The Oklab distance of `findClosestPaletteColor` (`algorithm === 'oklab'`):
squared Euclidean distance in Oklab. -/
def oklabDist (cc : ColorConv) (t p : Rgb) : ℚ :=
  let a := cc.oklabF t.r t.g t.b
  let c := cc.oklabF p.r p.g p.b
  (a.1 - c.1) ^ 2 + (a.2.1 - c.2.1) ^ 2 + (a.2.2 - c.2.2) ^ 2

/-- The LAB distance of `findClosestPaletteColor` (default branch): squared
Euclidean distance in LAB plus the optional chroma penalty
`(targetChroma - candChroma)² × weight` when the penalty is enabled, the
target chroma exceeds 20 and the candidate chroma is lower. -/
def labDist (cc : ColorConv) (opts : ChromaOptions) (t p : Rgb) : ℚ :=
  let a := cc.labF t.r t.g t.b
  let c := cc.labF p.r p.g p.b
  let targetChroma := cc.sqrtF (a.2.1 * a.2.1 + a.2.2 * a.2.2)
  let base := (a.1 - c.1) ^ 2 + (a.2.1 - c.2.1) ^ 2 + (a.2.2 - c.2.2) ^ 2
  if opts.enableChromaPenalty ∧ 20 < targetChroma then
    let candChroma := cc.sqrtF (c.2.1 * c.2.1 + c.2.2 * c.2.2)
    if candChroma < targetChroma then
      base + (targetChroma - candChroma) ^ 2 * opts.chromaPenaltyWeight
    else base
  else base

/-- `dist < bestDist`, where `none` is the initial `Infinity`. -/
def scoreLt (d : ℚ) : Option ℚ → Prop
  | none => True
  | some d0 => d < d0

instance (d : ℚ) (bd : Option ℚ) : Decidable (scoreLt d bd) :=
  match bd with
  | none => isTrue trivial
  | some d0 => inferInstanceAs (Decidable (d < d0))

theorem scoreLt_none (d : ℚ) : scoreLt d none := trivial

/-- The scan common to every branch of `findClosestPaletteColor`: walk the
palette, replacing the best entry exactly when the score is strictly below
the best score so far. -/
def scanLoop (score : Rgb → ℚ) : List Rgb → Rgb → Option ℚ → Rgb
  | [], best, _ => best
  | p :: rest, best, bd =>
    if scoreLt (score p) bd then scanLoop score rest p (some (score p))
    else scanLoop score rest best bd

/-- `findClosestPaletteColor(r, g, b, palette, algorithm, options)`.

The palette argument is the normalised list of RGB triples (`normPalette` in
the source; a missing palette is the empty list).  The `null` accumulator of
the `hsv`/`oklab`/`lab` branches is replaced by the definite accumulator
`⟨0,0,0⟩`: on a non-empty palette the first comparison against `Infinity`
always succeeds so the accumulator is never returned, and the empty palette is
returned early as `[0,0,0]`, exactly the `best || [0, 0, 0]` fallback.
Every unrecognised algorithm string falls through to the LAB branch, as in the
source. -/
def findClosestPaletteColor (cc : ColorConv) (r g b : ℚ) (palette : List Rgb)
    (algorithm : String) (opts : ChromaOptions) : Rgb :=
  if palette = [] then ⟨0, 0, 0⟩
  else if algorithm = "rgb" then
    scanLoop (rgbDistSq ⟨r, g, b⟩) palette ⟨0, 0, 0⟩ none
  else if algorithm = "hsv" then
    scanLoop (hsvDist ⟨r, g, b⟩) palette ⟨0, 0, 0⟩ none
  else if algorithm = "oklab" then
    scanLoop (oklabDist cc ⟨r, g, b⟩) palette ⟨0, 0, 0⟩ none
  else
    scanLoop (labDist cc opts ⟨r, g, b⟩) palette ⟨0, 0, 0⟩ none

/-- The score function each algorithm string selects in
`findClosestPaletteColor`. -/
def algScore (cc : ColorConv) (opts : ChromaOptions) (algorithm : String)
    (t : Rgb) : Rgb → ℚ :=
  if algorithm = "rgb" then rgbDistSq t
  else if algorithm = "hsv" then hsvDist t
  else if algorithm = "oklab" then oklabDist cc t
  else labDist cc opts t

theorem findClosest_eq_scanLoop (cc : ColorConv) (r g b : ℚ)
    (palette : List Rgb) (algorithm : String) (opts : ChromaOptions)
    (hne : palette ≠ []) :
    findClosestPaletteColor cc r g b palette algorithm opts =
      scanLoop (algScore cc opts algorithm ⟨r, g, b⟩) palette ⟨0, 0, 0⟩ none := by
  unfold findClosestPaletteColor algScore
  rw [if_neg hne]
  split_ifs <;> rfl

theorem scanLoop_no_improve (score : Rgb → ℚ) :
    ∀ (l : List Rgb) (best : Rgb) (bd : Option ℚ),
      (∀ x ∈ l, ¬scoreLt (score x) bd) → scanLoop score l best bd = best := by
  intro l
  induction l with
  | nil => intro best bd _; rfl
  | cons p rest ih =>
    intro best bd h
    rw [scanLoop, if_neg (h p (List.mem_cons_self _ _))]
    exact ih best bd (fun x hx => h x (List.mem_cons_of_mem _ hx))

/-- The entry returned by the scan is the first one attaining the strictly
lowest score: every earlier entry scores strictly higher, every entry at
least as high. -/
theorem scanLoop_first_min (score : Rgb → ℚ) (e : Rgb) :
    ∀ (l₁ l₂ : List Rgb) (best : Rgb) (bd : Option ℚ),
      (∀ x ∈ l₁, score e < score x) →
      (∀ x ∈ l₂, score e ≤ score x) →
      (∀ d, bd = some d → score e < d) →
      scanLoop score (l₁ ++ e :: l₂) best bd = e := by
  intro l₁
  induction l₁ with
  | nil =>
    intro l₂ best bd _ h2 hbd
    rw [List.nil_append, scanLoop, if_pos ?_]
    · exact scanLoop_no_improve score l₂ e (some (score e))
        (fun x hx hlt => absurd (h2 x hx) (not_le.mpr hlt))
    · cases bd with
      | none => trivial
      | some d => exact hbd d rfl
  | cons a l₁ ih =>
    intro l₂ best bd h1 h2 hbd
    rw [List.cons_append, scanLoop]
    by_cases hc : scoreLt (score a) bd
    · rw [if_pos hc]
      exact ih l₂ a (some (score a))
        (fun x hx => h1 x (List.mem_cons_of_mem _ hx)) h2
        (fun d hd => by
          injection hd with hd
          rw [← hd]
          exact h1 a (List.mem_cons_self _ _))
    · rw [if_neg hc]
      exact ih l₂ best bd (fun x hx => h1 x (List.mem_cons_of_mem _ hx)) h2 hbd

theorem scanLoop_mem (score : Rgb → ℚ) :
    ∀ (l : List Rgb) (best : Rgb) (bd : Option ℚ),
      scanLoop score l best bd = best ∨ scanLoop score l best bd ∈ l := by
  intro l
  induction l with
  | nil => intro best bd; exact Or.inl rfl
  | cons p rest ih =>
    intro best bd
    rw [scanLoop]
    by_cases hc : scoreLt (score p) bd
    · rw [if_pos hc]
      rcases ih p (some (score p)) with h | h
      · exact Or.inr (by rw [h]; exact List.mem_cons_self _ _)
      · exact Or.inr (List.mem_cons_of_mem _ h)
    · rw [if_neg hc]
      rcases ih best bd with h | h
      · exact Or.inl h
      · exact Or.inr (List.mem_cons_of_mem _ h)

/-- On a non-empty palette, `findClosestPaletteColor` returns a palette
entry (the accumulator `⟨0,0,0⟩` never escapes). -/
theorem findClosest_mem (cc : ColorConv) (r g b : ℚ) (palette : List Rgb)
    (algorithm : String) (opts : ChromaOptions) (hne : palette ≠ []) :
    findClosestPaletteColor cc r g b palette algorithm opts ∈ palette := by
  rw [findClosest_eq_scanLoop cc r g b palette algorithm opts hne]
  obtain ⟨p, rest, rfl⟩ := List.exists_cons_of_ne_nil hne
  rw [scanLoop, if_pos (scoreLt_none _)]
  rcases scanLoop_mem (algScore cc opts algorithm ⟨r, g, b⟩) rest p
      (some (algScore cc opts algorithm ⟨r, g, b⟩ p)) with h | h
  · rw [h]
    exact List.mem_cons_self _ _
  · exact List.mem_cons_of_mem _ h

/-- A channel value that is an 8-bit byte (an integer in `[0, 255]`). -/
def IsByte (q : ℚ) : Prop := ∃ n : ℕ, n ≤ 255 ∧ q = (n : ℚ)

/-- All three channels are bytes, the format of raster and palette colors. -/
def RgbBytes (c : Rgb) : Prop := IsByte c.r ∧ IsByte c.g ∧ IsByte c.b

theorem IsByte.bounds {q : ℚ} (h : IsByte q) : 0 ≤ q ∧ q ≤ 255 := by
  obtain ⟨n, hn, rfl⟩ := h
  exact ⟨by positivity, by exact_mod_cast hn⟩

theorem RgbBytes.nonneg {c : Rgb} (h : RgbBytes c) :
    0 ≤ c.r ∧ 0 ≤ c.g ∧ 0 ≤ c.b :=
  ⟨h.1.bounds.1, h.2.1.bounds.1, h.2.2.bounds.1⟩

theorem sq_zero_rat {x : ℚ} (h : x ^ 2 = 0) : x = 0 := by
  have := sq_eq_zero_iff.mp h
  exact this

theorem rgbDistSq_self (t : Rgb) : rgbDistSq t t = 0 := by
  simp [rgbDistSq, jsShr8_zero]

theorem hsvDist_self (t : Rgb) : hsvDist t t = 0 := by
  simp only [hsvDist, sub_self, abs_zero, sub_zero]
  norm_num

theorem oklabDist_self (cc : ColorConv) (t : Rgb) : oklabDist cc t t = 0 := by
  simp [oklabDist]

theorem labDist_self (cc : ColorConv) (opts : ChromaOptions) (t : Rgb) :
    labDist cc opts t t = 0 := by
  simp only [labDist]
  split_ifs with h1 h2
  · exact absurd h2 (lt_irrefl _)
  · ring
  · ring

theorem rgbDistSq_nonneg {t p : Rgb} (ht : RgbBytes t) (hp : RgbBytes p) :
    0 ≤ rgbDistSq t p := by
  obtain ⟨htr1, htr2⟩ := ht.1.bounds
  obtain ⟨hpr1, hpr2⟩ := hp.1.bounds
  have e1 : 0 ≤ (512 + (p.r + t.r) / 2) * (p.r - t.r) * (p.r - t.r) := by
    nlinarith [mul_self_nonneg (p.r - t.r)]
  have e2 : 0 ≤ (767 - (p.r + t.r) / 2) * (p.b - t.b) * (p.b - t.b) := by
    nlinarith [mul_self_nonneg (p.b - t.b)]
  have j3 : (0:ℚ) ≤ 4 * (p.g - t.g) * (p.g - t.g) := by
    nlinarith [mul_self_nonneg (p.g - t.g)]
  simp only [rgbDistSq]
  have c1 : (0:ℚ) ≤ ((jsShr8 ((512 + (p.r + t.r) / 2) * (p.r - t.r) * (p.r - t.r)) : ℤ) : ℚ) := by
    exact_mod_cast jsShr8_nonneg e1
  have c2 : (0:ℚ) ≤ ((jsShr8 ((767 - (p.r + t.r) / 2) * (p.b - t.b) * (p.b - t.b)) : ℤ) : ℚ) := by
    exact_mod_cast jsShr8_nonneg e2
  linarith

theorem oklabDist_nonneg (cc : ColorConv) (t p : Rgb) : 0 ≤ oklabDist cc t p := by
  simp only [oklabDist]
  positivity

theorem hsvDist_nonneg (t p : Rgb) : 0 ≤ hsvDist t p := by
  simp only [hsvDist]
  have h1 := mul_self_nonneg
    (min |(rgbToHsv t).1 - (rgbToHsv p).1| (360 - |(rgbToHsv t).1 - (rgbToHsv p).1|) / 360)
  have h2 := sq_nonneg ((rgbToHsv t).2.1 - (rgbToHsv p).2.1)
  have h3 := sq_nonneg ((rgbToHsv t).2.2 - (rgbToHsv p).2.2)
  linarith

theorem labDist_nonneg (cc : ColorConv) (opts : ChromaOptions) (t p : Rgb)
    (hw : 0 ≤ opts.chromaPenaltyWeight) : 0 ≤ labDist cc opts t p := by
  simp only [labDist]
  split_ifs
  · exact add_nonneg (by positivity) (mul_nonneg (sq_nonneg _) hw)
  · positivity
  · positivity

/-- Integer-valued channels with distinct values are at distance ≥ 1. -/
theorem byte_sub_sq_ge_one {q1 q2 : ℚ} (h1 : IsByte q1) (h2 : IsByte q2)
    (hne : q1 ≠ q2) : 1 ≤ (q1 - q2) * (q1 - q2) := by
  obtain ⟨n1, -, rfl⟩ := h1
  obtain ⟨n2, -, rfl⟩ := h2
  have hz : (n1 : ℤ) ≠ (n2 : ℤ) := by
    intro h
    exact hne (by exact_mod_cast h)
  have hone : 1 ≤ ((n1 : ℤ) - n2) * ((n1 : ℤ) - n2) := by
    rcases lt_or_gt_of_ne hz with h | h
    · nlinarith
    · nlinarith
  have : ((1 : ℤ) : ℚ) ≤ ((((n1 : ℤ) - n2) * ((n1 : ℤ) - n2) : ℤ) : ℚ) := by
    exact_mod_cast hone
  push_cast at this ⊢
  linarith

theorem rgbDistSq_eq_zero {t p : Rgb} (ht : RgbBytes t) (hp : RgbBytes p)
    (h : rgbDistSq t p = 0) : p = t := by
  obtain ⟨htr1, htr2⟩ := ht.1.bounds
  obtain ⟨hpr1, hpr2⟩ := hp.1.bounds
  have e1 : 0 ≤ (512 + (p.r + t.r) / 2) * (p.r - t.r) * (p.r - t.r) := by
    nlinarith [mul_self_nonneg (p.r - t.r)]
  have e2 : 0 ≤ (767 - (p.r + t.r) / 2) * (p.b - t.b) * (p.b - t.b) := by
    nlinarith [mul_self_nonneg (p.b - t.b)]
  have j3 : (0:ℚ) ≤ 4 * (p.g - t.g) * (p.g - t.g) := by
    nlinarith [mul_self_nonneg (p.g - t.g)]
  have c1 : (0:ℚ) ≤ ((jsShr8 ((512 + (p.r + t.r) / 2) * (p.r - t.r) * (p.r - t.r)) : ℤ) : ℚ) := by
    exact_mod_cast jsShr8_nonneg e1
  have c2 : (0:ℚ) ≤ ((jsShr8 ((767 - (p.r + t.r) / 2) * (p.b - t.b) * (p.b - t.b)) : ℤ) : ℚ) := by
    exact_mod_cast jsShr8_nonneg e2
  simp only [rgbDistSq] at h
  have hrr : p.r = t.r := by
    by_contra hne
    have hsq := byte_sub_sq_ge_one hp.1 ht.1 hne
    have h512 : (512:ℚ) ≤ (512 + (p.r + t.r) / 2) * (p.r - t.r) * (p.r - t.r) := by
      nlinarith
    have := jsShr8_pos h512
    have : (0:ℚ) < ((jsShr8 ((512 + (p.r + t.r) / 2) * (p.r - t.r) * (p.r - t.r)) : ℤ) : ℚ) := by
      exact_mod_cast this
    linarith
  have hbb : p.b = t.b := by
    by_contra hne
    have hsq := byte_sub_sq_ge_one hp.2.2 ht.2.2 hne
    have h512 : (512:ℚ) ≤ (767 - (p.r + t.r) / 2) * (p.b - t.b) * (p.b - t.b) := by
      nlinarith
    have := jsShr8_pos h512
    have : (0:ℚ) < ((jsShr8 ((767 - (p.r + t.r) / 2) * (p.b - t.b) * (p.b - t.b)) : ℤ) : ℚ) := by
      exact_mod_cast this
    linarith
  have hgg : p.g = t.g := by
    by_contra hne
    have hsq := byte_sub_sq_ge_one hp.2.1 ht.2.1 hne
    nlinarith
  exact Rgb.ext hrr hgg hbb

theorem hsvDist_eq_zero {t p : Rgb} (ht : 0 ≤ t.r ∧ 0 ≤ t.g ∧ 0 ≤ t.b)
    (hp : 0 ≤ p.r ∧ 0 ≤ p.g ∧ 0 ≤ p.b) (h : hsvDist t p = 0) : p = t := by
  obtain ⟨hta, htb⟩ := rgbToHsv_h_range t
  obtain ⟨hpa, hpb⟩ := rgbToHsv_h_range p
  simp only [hsvDist] at h
  have h1 := mul_self_nonneg
    (min |(rgbToHsv t).1 - (rgbToHsv p).1| (360 - |(rgbToHsv t).1 - (rgbToHsv p).1|) / 360)
  have h2 := sq_nonneg ((rgbToHsv t).2.1 - (rgbToHsv p).2.1)
  have h3 := sq_nonneg ((rgbToHsv t).2.2 - (rgbToHsv p).2.2)
  have hd0 : min |(rgbToHsv t).1 - (rgbToHsv p).1|
      (360 - |(rgbToHsv t).1 - (rgbToHsv p).1|) / 360 = 0 := by
    apply mul_self_eq_zero.mp
    linarith
  have habs : |(rgbToHsv t).1 - (rgbToHsv p).1| < 360 := by
    rw [abs_sub_lt_iff]
    constructor <;> linarith
  have hmin0 : min |(rgbToHsv t).1 - (rgbToHsv p).1|
      (360 - |(rgbToHsv t).1 - (rgbToHsv p).1|) = 0 := by
    have := div_eq_zero_iff.mp hd0
    rcases this with h | h
    · exact h
    · norm_num at h
  have hh : (rgbToHsv t).1 = (rgbToHsv p).1 := by
    rcases min_choice |(rgbToHsv t).1 - (rgbToHsv p).1|
        (360 - |(rgbToHsv t).1 - (rgbToHsv p).1|) with hc | hc
    · rw [hc] at hmin0
      have := abs_eq_zero.mp hmin0
      linarith [sub_eq_zero.mp this]
    · rw [hc] at hmin0
      linarith
  have hs : (rgbToHsv t).2.1 = (rgbToHsv p).2.1 := by
    have hz : ((rgbToHsv t).2.1 - (rgbToHsv p).2.1) ^ 2 = 0 := by linarith
    linarith [sub_eq_zero.mp (sq_zero_rat hz)]
  have hv : (rgbToHsv t).2.2 = (rgbToHsv p).2.2 := by
    have hz : ((rgbToHsv t).2.2 - (rgbToHsv p).2.2) ^ 2 = 0 := by linarith
    linarith [sub_eq_zero.mp (sq_zero_rat hz)]
  have heq : rgbToHsv t = rgbToHsv p := by
    have e1 : rgbToHsv t = ((rgbToHsv t).1, (rgbToHsv t).2.1, (rgbToHsv t).2.2) := rfl
    have e2 : rgbToHsv p = ((rgbToHsv p).1, (rgbToHsv p).2.1, (rgbToHsv p).2.2) := rfl
    rw [e1, e2, hh, hs, hv]
  exact (rgbToHsv_inj ht hp heq).symm

theorem oklabDist_eq_zero {cc : ColorConv} {t p : Rgb}
    (h : oklabDist cc t p = 0) :
    cc.oklabF t.r t.g t.b = cc.oklabF p.r p.g p.b := by
  simp only [oklabDist] at h
  have h1 := sq_nonneg ((cc.oklabF t.r t.g t.b).1 - (cc.oklabF p.r p.g p.b).1)
  have h2 := sq_nonneg ((cc.oklabF t.r t.g t.b).2.1 - (cc.oklabF p.r p.g p.b).2.1)
  have h3 := sq_nonneg ((cc.oklabF t.r t.g t.b).2.2 - (cc.oklabF p.r p.g p.b).2.2)
  have e1 : (cc.oklabF t.r t.g t.b).1 = (cc.oklabF p.r p.g p.b).1 := by
    have hz : ((cc.oklabF t.r t.g t.b).1 - (cc.oklabF p.r p.g p.b).1) ^ 2 = 0 := by
      linarith
    linarith [sub_eq_zero.mp (sq_zero_rat hz)]
  have e2 : (cc.oklabF t.r t.g t.b).2.1 = (cc.oklabF p.r p.g p.b).2.1 := by
    have hz : ((cc.oklabF t.r t.g t.b).2.1 - (cc.oklabF p.r p.g p.b).2.1) ^ 2 = 0 := by
      linarith
    linarith [sub_eq_zero.mp (sq_zero_rat hz)]
  have e3 : (cc.oklabF t.r t.g t.b).2.2 = (cc.oklabF p.r p.g p.b).2.2 := by
    have hz : ((cc.oklabF t.r t.g t.b).2.2 - (cc.oklabF p.r p.g p.b).2.2) ^ 2 = 0 := by
      linarith
    linarith [sub_eq_zero.mp (sq_zero_rat hz)]
  calc cc.oklabF t.r t.g t.b
      = ((cc.oklabF t.r t.g t.b).1, (cc.oklabF t.r t.g t.b).2.1,
          (cc.oklabF t.r t.g t.b).2.2) := rfl
    _ = ((cc.oklabF p.r p.g p.b).1, (cc.oklabF p.r p.g p.b).2.1,
          (cc.oklabF p.r p.g p.b).2.2) := by rw [e1, e2, e3]
    _ = cc.oklabF p.r p.g p.b := rfl

theorem labDist_eq_zero {cc : ColorConv} {opts : ChromaOptions} {t p : Rgb}
    (hw : 0 ≤ opts.chromaPenaltyWeight) (h : labDist cc opts t p = 0) :
    cc.labF t.r t.g t.b = cc.labF p.r p.g p.b := by
  have hbase : (cc.labF t.r t.g t.b).1 = (cc.labF p.r p.g p.b).1 ∧
      (cc.labF t.r t.g t.b).2.1 = (cc.labF p.r p.g p.b).2.1 ∧
      (cc.labF t.r t.g t.b).2.2 = (cc.labF p.r p.g p.b).2.2 := by
    simp only [labDist] at h
    have h1 := sq_nonneg ((cc.labF t.r t.g t.b).1 - (cc.labF p.r p.g p.b).1)
    have h2 := sq_nonneg ((cc.labF t.r t.g t.b).2.1 - (cc.labF p.r p.g p.b).2.1)
    have h3 := sq_nonneg ((cc.labF t.r t.g t.b).2.2 - (cc.labF p.r p.g p.b).2.2)
    have hb0 : (cc.labF t.r t.g t.b).1 - (cc.labF p.r p.g p.b).1 = 0 ∧
        (cc.labF t.r t.g t.b).2.1 - (cc.labF p.r p.g p.b).2.1 = 0 ∧
        (cc.labF t.r t.g t.b).2.2 - (cc.labF p.r p.g p.b).2.2 = 0 := by
      split_ifs at h with h4 h5
      · have hpen := mul_nonneg
          (sq_nonneg (cc.sqrtF ((cc.labF t.r t.g t.b).2.1 * (cc.labF t.r t.g t.b).2.1 +
              (cc.labF t.r t.g t.b).2.2 * (cc.labF t.r t.g t.b).2.2) -
            cc.sqrtF ((cc.labF p.r p.g p.b).2.1 * (cc.labF p.r p.g p.b).2.1 +
              (cc.labF p.r p.g p.b).2.2 * (cc.labF p.r p.g p.b).2.2)))
          hw
        exact ⟨sq_zero_rat (by linarith), sq_zero_rat (by linarith),
          sq_zero_rat (by linarith)⟩
      · exact ⟨sq_zero_rat (by linarith), sq_zero_rat (by linarith),
          sq_zero_rat (by linarith)⟩
      · exact ⟨sq_zero_rat (by linarith), sq_zero_rat (by linarith),
          sq_zero_rat (by linarith)⟩
    exact ⟨by linarith [sub_eq_zero.mp hb0.1],
      by linarith [sub_eq_zero.mp hb0.2.1],
      by linarith [sub_eq_zero.mp hb0.2.2]⟩
  calc cc.labF t.r t.g t.b
      = ((cc.labF t.r t.g t.b).1, (cc.labF t.r t.g t.b).2.1,
          (cc.labF t.r t.g t.b).2.2) := rfl
    _ = ((cc.labF p.r p.g p.b).1, (cc.labF p.r p.g p.b).2.1,
          (cc.labF p.r p.g p.b).2.2) := by
        rw [hbase.1, hbase.2.1, hbase.2.2]
    _ = cc.labF p.r p.g p.b := rfl

/-- Packing disjoint bit ranges: for `b < 2^k`, `(a <<< k) ||| b = a·2^k + b`. -/
theorem shiftLeft_lor_eq_add (k a b : ℕ) (hb : b < 2 ^ k) :
    (a <<< k) ||| b = a * 2 ^ k + b := by
  apply Nat.eq_of_testBit_eq
  intro i
  rw [Nat.testBit_lor, Nat.testBit_shiftLeft]
  by_cases hk : k ≤ i
  · have hble : b < 2 ^ i :=
      lt_of_lt_of_le hb (Nat.pow_le_pow_right (by norm_num) hk)
    have hbi : b.testBit i = false := Nat.testBit_lt_two_pow hble
    have h1 : (a * 2 ^ k + b) / 2 ^ k = a := by
      rw [mul_comm a (2 ^ k), Nat.mul_add_div (Nat.two_pow_pos k),
        Nat.div_eq_of_lt hb]
      omega
    have hdiv : (a * 2 ^ k + b) / 2 ^ i = a / 2 ^ (i - k) := by
      have hp : 2 ^ k * 2 ^ (i - k) = 2 ^ i := by
        rw [← pow_add]
        congr 1
        omega
      calc (a * 2 ^ k + b) / 2 ^ i
          = (a * 2 ^ k + b) / (2 ^ k * 2 ^ (i - k)) := by rw [hp]
        _ = (a * 2 ^ k + b) / 2 ^ k / 2 ^ (i - k) := by
            rw [Nat.div_div_eq_div_mul]
        _ = a / 2 ^ (i - k) := by rw [h1]
    have hdec : decide (k ≤ i) = true := decide_eq_true hk
    rw [hbi, Bool.or_false, hdec, Bool.true_and, Nat.testBit_to_div_mod,
      Nat.testBit_to_div_mod, hdiv]
  · push_neg at hk
    have hsplit : a * 2 ^ k + b = 2 ^ i * (2 * (a * 2 ^ (k - 1 - i))) + b := by
      have he : i + 1 + (k - 1 - i) = k := by omega
      have h2 : 2 ^ i * (2 * 2 ^ (k - 1 - i)) = 2 ^ k := by
        rw [show 2 ^ i * (2 * 2 ^ (k - 1 - i)) = 2 ^ (i + 1 + (k - 1 - i)) by
          ring, he]
      rw [← h2]
      ring
    have hdiv : (a * 2 ^ k + b) / 2 ^ i % 2 = b / 2 ^ i % 2 := by
      rw [hsplit, Nat.mul_add_div (Nat.two_pow_pos i)]
      omega
    have hdec : decide (k ≤ i) = false := decide_eq_false (by omega)
    rw [hdec, Bool.false_and, Bool.false_or, Nat.testBit_to_div_mod,
      Nat.testBit_to_div_mod, hdiv]

/-!
## `resolveColor` and the processor caches

`resolveColor` and `_getLab` read and write caches stored on the processor
instance (`_colorCache`, `_labCache`); the embedding threads them explicitly:
each function takes the cache and returns the result together with the new
cache.
-/

/-- A palette entry as consumed by `resolveColor`: a host colour id plus an
RGB triple. -/
structure PalEntry where
  id : ℤ
  rgb : Rgb
deriving DecidableEq, Repr

/-- The value `resolveColor` returns: a colour id (`none` embeds JavaScript
`null`) and an RGB triple. -/
structure ResolveResult where
  id : Option ℤ
  rgb : Rgb
deriving DecidableEq, Repr

/-- The components of the template-string cache key
`r,g,b|algorithm|c-or-nc|weight|exact-or-closest` built by `resolveColor`.
The string is determined by and determines these components, so the key is
embedded as the component tuple. -/
structure CacheKey where
  rgb : Rgb
  algorithm : String
  chroma : Bool
  weight : ℚ
  exactMatch : Bool
deriving DecidableEq, Repr

/-- The `_colorCache` map: association list keyed by `CacheKey`
(`Map.get`/`Map.has` look the key up, `Map.set` inserts, `size` is the
length, `clear` empties it wholesale). -/
abbrev ColorCache := List (CacheKey × ResolveResult)

def cacheLookup (k : CacheKey) : ColorCache → Option ResolveResult
  | [] => none
  | (k2, v) :: rest => if k2 = k then some v else cacheLookup k rest

/-- The option record of `resolveColor` with its source defaults. -/
structure ResolveOptions where
  exactMatch : Bool := false
  algorithm : String := "lab"
  enableChromaPenalty : Bool := false
  chromaPenaltyWeight : ℚ := 0.15
  whiteThreshold : ℚ := 230
deriving DecidableEq

/-- The LAB distance of `resolveColor`'s non-legacy branch: the effective
`penaltyWeight` is `chromaPenaltyWeight` when the penalty is enabled and `0`
otherwise, and the penalty applies when that weight is positive and the
target chroma exceeds 20. -/
def labDistR (cc : ColorConv) (penaltyWeight : ℚ) (t p : Rgb) : ℚ :=
  let a := cc.labF t.r t.g t.b
  let c := cc.labF p.r p.g p.b
  let targetChroma := cc.sqrtF (a.2.1 * a.2.1 + a.2.2 * a.2.2)
  let base := (a.1 - c.1) * (a.1 - c.1) + (a.2.1 - c.2.1) * (a.2.1 - c.2.1) +
    (a.2.2 - c.2.2) * (a.2.2 - c.2.2)
  if 0 < penaltyWeight ∧ 20 < targetChroma then
    let candChroma := cc.sqrtF (c.2.1 * c.2.1 + c.2.2 * c.2.2)
    if candChroma < targetChroma then
      base + (targetChroma - candChroma) * (targetChroma - candChroma) * penaltyWeight
    else base
  else base

/-- The nearest-colour loop of `resolveColor`: initial best is the first
entry with `bestScore = Infinity`, an update happens on a strictly smaller
score, and an exact zero-distance match breaks out of the loop.  (On the
legacy branch the source compares `Math.sqrt` of the radicand, which
preserves both the strict comparisons and the zero test.) -/
def resolveScan (score : PalEntry → ℚ) :
    List PalEntry → ℤ → Rgb → Option ℚ → ℤ × Rgb
  | [], bid, brgb, _ => (bid, brgb)
  | c :: rest, bid, brgb, bsc =>
    if scoreLt (score c) bsc then
      if score c = 0 then (c.id, c.rgb)
      else resolveScan score rest c.id c.rgb (some (score c))
    else resolveScan score rest bid brgb bsc

/-- Whether an entry clears the white threshold on all three channels
(`c.rgb[i] >= whiteThreshold`). -/
def isWhiteEntry (thr : ℚ) (c : PalEntry) : Bool :=
  decide (thr ≤ c.rgb.r ∧ thr ≤ c.rgb.g ∧ thr ≤ c.rgb.b)

/-- `resolveColor(targetRgb, availableColors, options)` with `_colorCache`
threaded explicitly; returns the result and the new cache.

Mirrors the source paths in order: empty palette sentinel (before any cache
access), cache hit, exact-match scan (cached, no size check), white-pixel
override (cached, no size check), then the distance scan whose insertion is
followed by the `size > 20000 → clear()` check. -/
def resolveColor (cc : ColorConv) (cache : ColorCache) (targetRgb : Rgb)
    (availableColors : List PalEntry) (opts : ResolveOptions) :
    ResolveResult × ColorCache :=
  if availableColors = [] then ({ id := none, rgb := targetRgb }, cache)
  else
    let key : CacheKey :=
      { rgb := targetRgb, algorithm := opts.algorithm,
        chroma := opts.enableChromaPenalty, weight := opts.chromaPenaltyWeight,
        exactMatch := opts.exactMatch }
    match cacheLookup key cache with
    | some res => (res, cache)
    | none =>
      if opts.exactMatch then
        let res : ResolveResult :=
          match availableColors.find? (fun c => decide (c.rgb = targetRgb)) with
          | some m => { id := some m.id, rgb := m.rgb }
          | none => { id := none, rgb := targetRgb }
        (res, (key, res) :: cache)
      else
        match (if opts.whiteThreshold ≤ targetRgb.r ∧
            opts.whiteThreshold ≤ targetRgb.g ∧
            opts.whiteThreshold ≤ targetRgb.b then
            availableColors.find? (isWhiteEntry opts.whiteThreshold)
          else none) with
        | some w =>
          let res : ResolveResult := { id := some w.id, rgb := w.rgb }
          (res, (key, res) :: cache)
        | none =>
          match availableColors with
          | [] => ({ id := none, rgb := targetRgb }, cache)
          | c0 :: _ =>
            let score : PalEntry → ℚ :=
              if opts.algorithm = "legacy" then
                fun c => rgbDistSq targetRgb c.rgb
              else
                fun c => labDistR cc
                  (if opts.enableChromaPenalty then opts.chromaPenaltyWeight else 0)
                  targetRgb c.rgb
            let r0 := resolveScan score availableColors c0.id c0.rgb none
            let res : ResolveResult := { id := some r0.1, rgb := r0.2 }
            let cache2 := (key, res) :: cache
            (res, if 20000 < cache2.length then [] else cache2)

/-- The break in `resolveScan` short-circuits the scan: once a zero-distance
entry is reached (with only positive scores before it), everything after it
is never examined. -/
theorem resolveScan_break (score : PalEntry → ℚ) (hnn : ∀ c, 0 ≤ score c)
    (e : PalEntry) (he : score e = 0) :
    ∀ (pre post post' : List PalEntry) (bid : ℤ) (brgb : Rgb) (bsc : Option ℚ),
      (∀ d, bsc = some d → 0 < d) →
      resolveScan score (pre ++ e :: post) bid brgb bsc =
        resolveScan score (pre ++ e :: post') bid brgb bsc := by
  intro pre
  induction pre with
  | nil =>
    intro post post' bid brgb bsc hbsc
    have hlt : scoreLt (score e) bsc := by
      cases bsc with
      | none => trivial
      | some d =>
        show score e < d
        rw [he]
        exact hbsc d rfl
    simp only [List.nil_append, resolveScan]
    rw [if_pos hlt, if_pos he, if_pos hlt, if_pos he]
  | cons a pre ih =>
    intro post post' bid brgb bsc hbsc
    simp only [List.cons_append, resolveScan]
    by_cases hc : scoreLt (score a) bsc
    · by_cases hz : score a = 0
      · rw [if_pos hc, if_pos hz, if_pos hc, if_pos hz]
      · rw [if_pos hc, if_neg hz, if_pos hc, if_neg hz]
        exact ih post post' a.id a.rgb (some (score a)) (fun d hd => by
          injection hd with hd
          rw [← hd]
          exact lt_of_le_of_ne (hnn a) (Ne.symm hz))
    · rw [if_neg hc, if_neg hc]
      exact ih post post' bid brgb bsc hbsc

/-!
## The `_labCache` of `_getLab`
-/

/-- The `_labCache` map: 24-bit packed colour key to a LAB triple. -/
abbrev LabCache := List (ℕ × (ℚ × ℚ × ℚ))

/-- The cache key `(r << 16) | (g << 8) | b` of `_getLab` (byte channels;
a float channel is truncated by the shift, which can only merge keys). -/
def labKey (r g b : ℕ) : ℕ := ((r <<< 16) ||| (g <<< 8)) ||| b

def labCacheLookup (k : ℕ) : LabCache → Option (ℚ × ℚ × ℚ)
  | [] => none
  | (k2, v) :: rest => if k2 = k then some v else labCacheLookup k rest

/-- `_getLab(r, g, b)` with `_labCache` threaded explicitly; `labFn` stands
for the transcendental `_rgbToLab`.  On a miss the converted value is stored;
there is no size limit and no clearing anywhere in `_getLab`. -/
def getLab (labFn : ℕ → ℕ → ℕ → ℚ × ℚ × ℚ) (cache : LabCache) (r g b : ℕ) :
    (ℚ × ℚ × ℚ) × LabCache :=
  let key := labKey r g b
  match labCacheLookup key cache with
  | some v => (v, cache)
  | none =>
    let v := labFn r g b
    (v, (key, v) :: cache)

/-- Calling `_getLab` on the colours `(0, n / 256, n % 256)` for
`n = 0, 1, 2, …` in turn, starting from an empty cache. -/
def labCacheIter (labFn : ℕ → ℕ → ℕ → ℚ × ℚ × ℚ) : ℕ → LabCache
  | 0 => []
  | n + 1 => (getLab labFn (labCacheIter labFn n) 0 (n / 256) (n % 256)).2

theorem labKey_pack (n : ℕ) (h : n < 65536) : labKey 0 (n / 256) (n % 256) = n := by
  have hd : n / 256 < 256 := by omega
  have hm : n % 256 < 256 := by omega
  unfold labKey
  have h28 : (2:ℕ) ^ 8 = 256 := by norm_num
  rw [Nat.zero_shiftLeft, Nat.zero_or,
    shiftLeft_lor_eq_add 8 _ _ (by rw [h28]; omega), h28]
  omega

theorem labCacheLookup_none (n : ℕ) :
    ∀ L : LabCache, (∀ kv ∈ L, kv.1 ≠ n) → labCacheLookup n L = none := by
  intro L
  induction L with
  | nil => intro _; rfl
  | cons kv rest ih =>
    intro h
    rw [labCacheLookup, if_neg (h kv (List.mem_cons_self _ _))]
    exact ih (fun kv2 h2 => h kv2 (List.mem_cons_of_mem _ h2))

theorem labCacheIter_spec (labFn : ℕ → ℕ → ℕ → ℚ × ℚ × ℚ) :
    ∀ n, n ≤ 65536 →
      (labCacheIter labFn n).length = n ∧
        ∀ kv ∈ labCacheIter labFn n, kv.1 < n := by
  intro n
  induction n with
  | zero => intro _; exact ⟨rfl, by intro kv h; cases h⟩
  | succ n ih =>
    intro hle
    obtain ⟨hlen, hkeys⟩ := ih (by omega)
    have hmiss : labCacheLookup (labKey 0 (n / 256) (n % 256))
        (labCacheIter labFn n) = none := by
      rw [labKey_pack n (by omega)]
      exact labCacheLookup_none n _ (fun kv hkv => by
        have := hkeys kv hkv
        omega)
    rw [labCacheIter, getLab, hmiss]
    refine ⟨by simp [hlen], ?_⟩
    intro kv hkv
    rcases List.mem_cons.mp hkv with h | h
    · rw [h, labKey_pack n (by omega)]
      omega
    · have := hkeys kv h
      omega

/-!
## Quantization and dithering
-/

/-- An RGBA pixel; a raster with the invariant `length = 4·W·H` is the list
(or index function) of its `W·H` quadruples. -/
@[ext]
structure Rgba where
  r : ℚ
  g : ℚ
  b : ℚ
  a : ℚ
deriving DecidableEq, Repr

/-- `isWhitePixel(r, g, b, threshold)`: all channels at or above the
threshold. -/
def isWhitePixel (r g b thr : ℚ) : Bool :=
  decide (thr ≤ r ∧ thr ≤ g ∧ thr ≤ b)

/-- The options shared by `applySimpleQuantization`, `_applyOrderedDither`
and `_applyErrorDiffusion`, with the source defaults
(`TRANSPARENCY_THRESHOLD = 128`, `WHITE_THRESHOLD = 230`). -/
structure QuantOptions where
  algorithm : String := "lab"
  enableChromaPenalty : Bool := false
  chromaPenaltyWeight : ℚ := 0.15
  paintTransparentPixels : Bool := false
  paintWhitePixels : Bool := true
  transparencyThreshold : ℚ := 128
  whiteThreshold : ℚ := 230

/-- The chroma options forwarded to `findClosestPaletteColor`. -/
def QuantOptions.chroma (o : QuantOptions) : ChromaOptions :=
  { enableChromaPenalty := o.enableChromaPenalty,
    chromaPenaltyWeight := o.chromaPenaltyWeight }

/-- Pixel eligibility, identical in all three quantizers:
`(paintTransparentPixels || !isTransparent) && (paintWhitePixels ||
!isWhitePixel(..))` where `isTransparent = a < transparencyThreshold` (the
error-diffusion init loop spells the first conjunct positively as
`a >= transparencyThreshold`). -/
def pixelEligible (opts : QuantOptions) (p : Rgba) : Bool :=
  (opts.paintTransparentPixels || decide (opts.transparencyThreshold ≤ p.a)) &&
    (opts.paintWhitePixels || !isWhitePixel p.r p.g p.b opts.whiteThreshold)

/-- The per-pixel body of `applySimpleQuantization`: the written pixel and
whether it counted into `totalValidPixels`. -/
def simpleQuantPixel (cc : ColorConv) (palette : List Rgb)
    (opts : QuantOptions) (p : Rgba) : Rgba × Bool :=
  if !(pixelEligible opts p) then ({ p with a := 0 }, false)
  else if opts.paintTransparentPixels ∧ p.a < opts.transparencyThreshold then
    (⟨0, 0, 0, 0⟩, true)
  else
    let c := findClosestPaletteColor cc p.r p.g p.b palette opts.algorithm
      opts.chroma
    (⟨c.r, c.g, c.b, 255⟩, true)

/-- `applySimpleQuantization(imageData, width, height, palette, options)`:
the flat loop writes only at the current pixel, so it is a map; the
second component is `totalValidPixels`. -/
def applySimpleQuantization (cc : ColorConv) (data : List Rgba)
    (palette : List Rgb) (opts : QuantOptions) : List Rgba × ℕ :=
  ((data.map fun p => (simpleQuantPixel cc palette opts p).1),
   ((data.map fun p => (simpleQuantPixel cc palette opts p).2).count true))

/-- `_getBayerMatrix(method)`: the 2×2, 4×4 and 8×8 Bayer matrices, `null`
otherwise. -/
def getBayerMatrix (method : String) : Option (List (List ℚ)) :=
  if method = "bayer2" then
    some [[0/4, 2/4], [3/4, 1/4]]
  else if method = "bayer4" then
    some [[0/16, 8/16, 2/16, 10/16], [12/16, 4/16, 14/16, 6/16],
      [3/16, 11/16, 1/16, 9/16], [15/16, 7/16, 13/16, 5/16]]
  else if method = "bayer8" then
    some [[0/64, 32/64, 8/64, 40/64, 2/64, 34/64, 10/64, 42/64],
      [48/64, 16/64, 56/64, 24/64, 50/64, 18/64, 58/64, 26/64],
      [12/64, 44/64, 4/64, 36/64, 14/64, 46/64, 6/64, 38/64],
      [60/64, 28/64, 52/64, 20/64, 62/64, 30/64, 54/64, 22/64],
      [3/64, 35/64, 11/64, 43/64, 1/64, 33/64, 9/64, 41/64],
      [51/64, 19/64, 59/64, 27/64, 49/64, 17/64, 57/64, 25/64],
      [15/64, 47/64, 7/64, 39/64, 13/64, 45/64, 5/64, 37/64],
      [63/64, 31/64, 55/64, 23/64, 61/64, 29/64, 53/64, 21/64]]
  else none

/-- `matrix[y % matrixSize][x % matrixSize]`.  Callers of
`_applyOrderedDither` guarantee an ordered method; on an unknown method the
source would fault on the `null` matrix, which the embedding replaces by an
unreachable default. -/
def bayerThreshold (method : String) (x y : ℕ) : ℚ :=
  match getBayerMatrix method with
  | none => 0
  | some m =>
    let size := m.length
    (m.getD (y % size) []).getD (x % size) 0

/-- The per-pixel body of `_applyOrderedDither` at pixel index `idx`
(`x = idx % width`, `y = idx / width`); `rand idx` is the `Math.random()`
draw at that pixel. -/
def orderedDitherPixel (cc : ColorConv) (palette : List Rgb) (method : String)
    (strength : ℚ) (opts : QuantOptions) (rand : ℕ → ℚ) (width : ℕ)
    (idx : ℕ) (p : Rgba) : Rgba × Bool :=
  if !(pixelEligible opts p) then ({ p with a := 0 }, false)
  else if opts.paintTransparentPixels ∧ p.a < opts.transparencyThreshold then
    (⟨0, 0, 0, 0⟩, true)
  else
    let threshold :=
      if method = "random" then rand idx
      else bayerThreshold method (idx % width) (idx / width)
    let noise := (threshold - 0.5) * 64 * strength
    let nr := max 0 (min 255 (p.r + noise))
    let ng := max 0 (min 255 (p.g + noise))
    let nb := max 0 (min 255 (p.b + noise))
    let c := findClosestPaletteColor cc nr ng nb palette opts.algorithm
      opts.chroma
    (⟨c.r, c.g, c.b, 255⟩, true)

/-- `_applyOrderedDither(imageData, width, height, palette, method, strength,
options)`: the loop runs row-major over exactly the `width·height` pixel
indices (any pixel beyond stays a copy); the second component is
`totalValidPixels`. -/
def applyOrderedDither (cc : ColorConv) (data : List Rgba)
    (width height : ℕ) (palette : List Rgb) (method : String) (strength : ℚ)
    (opts : QuantOptions) (rand : ℕ → ℚ) : List Rgba × ℕ :=
  ((data.enum.map fun ip =>
      if ip.1 < width * height then
        (orderedDitherPixel cc palette method strength opts rand width
          ip.1 ip.2).1
      else ip.2),
   ((data.enum.map fun ip =>
      if ip.1 < width * height then
        (orderedDitherPixel cc palette method strength opts rand width
          ip.1 ip.2).2
      else false).count true))

/-- One kernel offset of `_getDitherKernel`. -/
structure KOffset where
  dx : ℤ
  dy : ℤ
  weight : ℚ
deriving DecidableEq, Repr

/-- A diffusion kernel of `_getDitherKernel`. -/
structure Kernel where
  divisor : ℚ
  offsets : List KOffset
deriving DecidableEq, Repr

/-- `_getDitherKernel(method)` with its `|| kernels.floyd` fallback. -/
def getDitherKernel (method : String) : Kernel :=
  if method = "atkinson" then
    ⟨8, [⟨1,0,1⟩, ⟨2,0,1⟩, ⟨-1,1,1⟩, ⟨0,1,1⟩, ⟨1,1,1⟩, ⟨0,2,1⟩]⟩
  else if method = "jarvis" then
    ⟨48, [⟨1,0,7⟩, ⟨2,0,5⟩, ⟨-2,1,3⟩, ⟨-1,1,5⟩, ⟨0,1,7⟩, ⟨1,1,5⟩, ⟨2,1,3⟩,
      ⟨-2,2,1⟩, ⟨-1,2,3⟩, ⟨0,2,5⟩, ⟨1,2,3⟩, ⟨2,2,1⟩]⟩
  else if method = "stucki" then
    ⟨42, [⟨1,0,8⟩, ⟨2,0,4⟩, ⟨-2,1,2⟩, ⟨-1,1,4⟩, ⟨0,1,8⟩, ⟨1,1,4⟩, ⟨2,1,2⟩,
      ⟨-2,2,1⟩, ⟨-1,2,2⟩, ⟨0,2,4⟩, ⟨1,2,2⟩, ⟨2,2,1⟩]⟩
  else if method = "burkes" then
    ⟨32, [⟨1,0,8⟩, ⟨2,0,4⟩, ⟨-2,1,2⟩, ⟨-1,1,4⟩, ⟨0,1,8⟩, ⟨1,1,4⟩, ⟨2,1,2⟩]⟩
  else if method = "sierra" then
    ⟨32, [⟨1,0,5⟩, ⟨2,0,3⟩, ⟨-2,1,2⟩, ⟨-1,1,4⟩, ⟨0,1,5⟩, ⟨1,1,4⟩, ⟨2,1,2⟩,
      ⟨-1,2,2⟩, ⟨0,2,3⟩, ⟨1,2,2⟩]⟩
  else
    ⟨16, [⟨1,0,7⟩, ⟨-1,1,3⟩, ⟨0,1,5⟩, ⟨1,1,1⟩]⟩

/-- The `diffuse` closure of `_applyErrorDiffusion`: a portion aimed out of
bounds or at an ineligible pixel is dropped (the buffer is untouched);
otherwise `e·factor` is added to the neighbour's accumulator, each channel
clamped into `[0,255]` immediately. -/
def diffuse (width height : ℕ) (eligible : ℕ → Bool) (nx ny : ℤ)
    (er eg eb factor : ℚ) (work : ℕ → ℚ × ℚ × ℚ) : ℕ → ℚ × ℚ × ℚ :=
  if nx < 0 ∨ (width : ℤ) ≤ nx ∨ ny < 0 ∨ (height : ℤ) ≤ ny then work
  else
    let nidx := (ny * width + nx).toNat
    if !(eligible nidx) then work
    else fun j =>
      if j = nidx then
        (clampByte ((work nidx).1 + er * factor),
         clampByte ((work nidx).2.1 + eg * factor),
         clampByte ((work nidx).2.2 + eb * factor))
      else work j

/-- The diffusion loop `for ({dx, dy, weight} of kernel.offsets)
diffuse(x+dx, y+dy, er, eg, eb, weight / kernel.divisor)`. -/
def diffuseAll (k : Kernel) (width height : ℕ) (eligible : ℕ → Bool)
    (x y : ℕ) (er eg eb : ℚ) (work : ℕ → ℚ × ℚ × ℚ) : ℕ → ℚ × ℚ × ℚ :=
  k.offsets.foldl
    (fun w o => diffuse width height eligible ((x : ℤ) + o.dx)
      ((y : ℤ) + o.dy) er eg eb (o.weight / k.divisor) w)
    work

/-- The mutable state of `_applyErrorDiffusion`: the output bytes, the float
work buffer, the eligibility mask and the running valid-pixel count. -/
structure EDState where
  data : ℕ → Rgba
  work : ℕ → ℚ × ℚ × ℚ
  eligible : ℕ → Bool
  totalValid : ℕ

/-- The init loop of `_applyErrorDiffusion`: compute the eligibility mask,
seed the work buffer with the pixel RGB, zero the alpha of ineligible
pixels inside the raster. -/
def edInit (opts : QuantOptions) (img : ℕ → Rgba) (n : ℕ) : EDState :=
  { data := fun idx =>
      if idx < n ∧ !(pixelEligible opts (img idx)) then { img idx with a := 0 }
      else img idx
    work := fun idx => ((img idx).r, (img idx).g, (img idx).b)
    eligible := fun idx => pixelEligible opts (img idx)
    totalValid := 0 }

/-- The body of the processing loop of `_applyErrorDiffusion` at pixel
`idx` (`x = idx % width`, `y = idx / width`): skip ineligible pixels,
force-write transparent-but-paintable pixels, otherwise match against the
palette, write the quantized pixel with full alpha and diffuse the error. -/
def edStep (cc : ColorConv) (palette : List Rgb) (method : String)
    (opts : QuantOptions) (width height : ℕ) (st : EDState) (idx : ℕ) :
    EDState :=
  if !(st.eligible idx) then st
  else
    let w0 := st.work idx
    if opts.paintTransparentPixels ∧ (st.data idx).a < opts.transparencyThreshold then
      { st with
        data := fun j => if j = idx then ⟨0, 0, 0, 0⟩ else st.data j,
        totalValid := st.totalValid + 1 }
    else
      let c := findClosestPaletteColor cc w0.1 w0.2.1 w0.2.2 palette
        opts.algorithm opts.chroma
      { data := fun j => if j = idx then ⟨c.r, c.g, c.b, 255⟩ else st.data j,
        work := diffuseAll (getDitherKernel method) width height st.eligible
          (idx % width) (idx / width) (w0.1 - c.r) (w0.2.1 - c.g)
          (w0.2.2 - c.b) st.work,
        eligible := st.eligible,
        totalValid := st.totalValid + 1 }

/-- The state of `_applyErrorDiffusion` after the first `k` pixels of the
row-major scan. -/
def edStateAfter (cc : ColorConv) (palette : List Rgb) (method : String)
    (opts : QuantOptions) (width height : ℕ) (img : ℕ → Rgba) (k : ℕ) :
    EDState :=
  (List.range k).foldl (edStep cc palette method opts width height)
    (edInit opts img (width * height))

/-- `_applyErrorDiffusion(imageData, width, height, palette, method,
options)`: run the scan over all `width·height` pixels; the result is the
output raster (as an index function) and `totalValidPixels`. -/
def applyErrorDiffusion (cc : ColorConv) (img : ℕ → Rgba)
    (width height : ℕ) (palette : List Rgb) (method : String)
    (opts : QuantOptions) : (ℕ → Rgba) × ℕ :=
  let final := edStateAfter cc palette method opts width height img
    (width * height)
  (final.data, final.totalValid)

theorem clampByte_range (v : ℚ) : 0 ≤ clampByte v ∧ clampByte v ≤ 255 :=
  ⟨le_min (by norm_num) (le_max_left 0 v), min_le_left _ _⟩

theorem clampByte_eq_self {v : ℚ} (h0 : 0 ≤ v) (h255 : v ≤ 255) :
    clampByte v = v := by
  unfold clampByte
  rw [max_eq_right h0, min_eq_right h255]

/-- All channels of the pixel lie in `[0, 255]` (automatic for a
`Uint8ClampedArray` raster). -/
def pixIn255 (p : Rgba) : Prop :=
  (0 ≤ p.r ∧ p.r ≤ 255) ∧ (0 ≤ p.g ∧ p.g ≤ 255) ∧ (0 ≤ p.b ∧ p.b ≤ 255)

/-- Every accumulator triple of the work buffer lies in `[0, 255]³`. -/
def workInRange (work : ℕ → ℚ × ℚ × ℚ) : Prop :=
  ∀ j, (0 ≤ (work j).1 ∧ (work j).1 ≤ 255) ∧
    (0 ≤ (work j).2.1 ∧ (work j).2.1 ≤ 255) ∧
    (0 ≤ (work j).2.2 ∧ (work j).2.2 ≤ 255)

theorem diffuse_range {width height : ℕ} {eligible : ℕ → Bool} {nx ny : ℤ}
    {er eg eb factor : ℚ} {work : ℕ → ℚ × ℚ × ℚ} (h : workInRange work) :
    workInRange (diffuse width height eligible nx ny er eg eb factor work) := by
  simp only [diffuse]
  split_ifs with h1 h2
  · exact h
  · exact h
  · intro j
    by_cases hj : j = (ny * width + nx).toNat
    · simp only [if_pos hj]
      exact ⟨clampByte_range _, clampByte_range _, clampByte_range _⟩
    · simp only [if_neg hj]
      exact h j

theorem diffuseAll_range {k : Kernel} {width height : ℕ}
    {eligible : ℕ → Bool} {x y : ℕ} {er eg eb : ℚ}
    {work : ℕ → ℚ × ℚ × ℚ} (h : workInRange work) :
    workInRange (diffuseAll k width height eligible x y er eg eb work) := by
  unfold diffuseAll
  induction k.offsets generalizing work with
  | nil => exact h
  | cons o l ih => exact ih (diffuse_range h)

theorem edStep_eligible (cc : ColorConv) (palette : List Rgb)
    (method : String) (opts : QuantOptions) (width height : ℕ)
    (st : EDState) (idx : ℕ) :
    (edStep cc palette method opts width height st idx).eligible =
      st.eligible := by
  unfold edStep
  split_ifs <;> rfl

theorem edStateAfter_succ (cc : ColorConv) (palette : List Rgb)
    (method : String) (opts : QuantOptions) (width height : ℕ)
    (img : ℕ → Rgba) (k : ℕ) :
    edStateAfter cc palette method opts width height img (k + 1) =
      edStep cc palette method opts width height
        (edStateAfter cc palette method opts width height img k) k := by
  unfold edStateAfter
  rw [List.range_succ, List.foldl_append, List.foldl_cons, List.foldl_nil]

theorem edStateAfter_eligible (cc : ColorConv) (palette : List Rgb)
    (method : String) (opts : QuantOptions) (width height : ℕ)
    (img : ℕ → Rgba) (k : ℕ) :
    (edStateAfter cc palette method opts width height img k).eligible =
      fun idx => pixelEligible opts (img idx) := by
  induction k with
  | zero => rfl
  | succ k ih => rw [edStateAfter_succ, edStep_eligible, ih]

theorem edStep_work_range {cc : ColorConv} {palette : List Rgb}
    {method : String} {opts : QuantOptions} {width height : ℕ}
    {st : EDState} {idx : ℕ} (h : workInRange st.work) :
    workInRange (edStep cc palette method opts width height st idx).work := by
  unfold edStep
  split_ifs
  · exact h
  · exact h
  · exact diffuseAll_range h

/-- The work buffer stays inside `[0, 255]³` at every stage of the scan:
every diffusion step clamps immediately, so the triples handed to
`findClosestPaletteColor` (the `work idx` read by `edStep` at pixel `idx`)
always lie in `[0, 255]³`. -/
theorem edStateAfter_work_range (cc : ColorConv) (palette : List Rgb)
    (method : String) (opts : QuantOptions) (width height : ℕ)
    (img : ℕ → Rgba) (himg : ∀ i, pixIn255 (img i)) (k : ℕ) :
    workInRange (edStateAfter cc palette method opts width height img k).work := by
  induction k with
  | zero =>
    intro j
    exact ⟨(himg j).1, (himg j).2.1, (himg j).2.2⟩
  | succ k ih =>
    rw [edStateAfter_succ]
    exact edStep_work_range ih

/-- The work-buffer index a kernel offset lands on, `none` when out of
bounds: exactly the bound check of `diffuse` (a proof device). -/
def offTargetIdx (width height : ℕ) (x y : ℕ) (o : KOffset) : Option ℕ :=
  if (x : ℤ) + o.dx < 0 ∨ (width : ℤ) ≤ (x : ℤ) + o.dx ∨
      (y : ℤ) + o.dy < 0 ∨ (height : ℤ) ≤ (y : ℤ) + o.dy then none
  else some ((((y : ℤ) + o.dy) * width + ((x : ℤ) + o.dx)).toNat)

theorem diffuse_apply_offTarget_ne {width height : ℕ} {elig : ℕ → Bool}
    {x y : ℕ} {er eg eb f : ℚ} {work : ℕ → ℚ × ℚ × ℚ} {j : ℕ} (o : KOffset)
    (h : offTargetIdx width height x y o ≠ some j) :
    diffuse width height elig ((x : ℤ) + o.dx) ((y : ℤ) + o.dy) er eg eb f
      work j = work j := by
  unfold offTargetIdx at h
  by_cases h1 : (x : ℤ) + o.dx < 0 ∨ (width : ℤ) ≤ (x : ℤ) + o.dx ∨
      (y : ℤ) + o.dy < 0 ∨ (height : ℤ) ≤ (y : ℤ) + o.dy
  · simp only [diffuse, if_pos h1]
  · have hj : (((y : ℤ) + o.dy) * width + ((x : ℤ) + o.dx)).toNat ≠ j := by
      intro he
      apply h
      rw [if_neg h1, he]
    simp only [diffuse, if_neg h1]
    by_cases h2 : elig ((((y : ℤ) + o.dy) * width + ((x : ℤ) + o.dx)).toNat)
    · simp only [h2, Bool.not_true, Bool.false_eq_true, if_false]
      exact if_neg (fun hc => hj hc.symm)
    · simp only [Bool.not_eq_true] at h2
      simp only [h2, Bool.not_false, if_true]

theorem diffuse_apply_inelig {width height : ℕ} {elig : ℕ → Bool}
    {nx ny : ℤ} {er eg eb f : ℚ} {work : ℕ → ℚ × ℚ × ℚ} {j : ℕ}
    (he : elig j = false) :
    diffuse width height elig nx ny er eg eb f work j = work j := by
  simp only [diffuse]
  split_ifs with h1 h2
  · rfl
  · rfl
  · simp only []
    refine if_neg (fun hj => ?_)
    have h3 : elig ((ny * width + nx).toNat) = true := by
      revert h2
      cases elig ((ny * width + nx).toNat) <;> simp
    rw [hj, h3] at he
    cases he

theorem diffuse_apply_target {width height : ℕ} {elig : ℕ → Bool}
    {x y : ℕ} {er eg eb f : ℚ} {work : ℕ → ℚ × ℚ × ℚ} {j : ℕ} (o : KOffset)
    (hj : offTargetIdx width height x y o = some j) (he : elig j = true) :
    diffuse width height elig ((x : ℤ) + o.dx) ((y : ℤ) + o.dy) er eg eb f
      work j =
      (clampByte ((work j).1 + er * f), clampByte ((work j).2.1 + eg * f),
       clampByte ((work j).2.2 + eb * f)) := by
  unfold offTargetIdx at hj
  by_cases h1 : (x : ℤ) + o.dx < 0 ∨ (width : ℤ) ≤ (x : ℤ) + o.dx ∨
      (y : ℤ) + o.dy < 0 ∨ (height : ℤ) ≤ (y : ℤ) + o.dy
  · rw [if_pos h1] at hj
    cases hj
  · rw [if_neg h1] at hj
    injection hj with hj
    have hne : ¬((!elig j) = true) := by
      rw [he]
      decide
    simp only [diffuse, if_neg h1, hj, if_neg hne, if_pos rfl, if_true]

theorem offTargetIdx_inj {width height x y : ℕ} {o1 o2 : KOffset} {j : ℕ}
    (h1 : offTargetIdx width height x y o1 = some j)
    (h2 : offTargetIdx width height x y o2 = some j) :
    o1.dx = o2.dx ∧ o1.dy = o2.dy := by
  unfold offTargetIdx at h1 h2
  by_cases c1 : (x : ℤ) + o1.dx < 0 ∨ (width : ℤ) ≤ (x : ℤ) + o1.dx ∨
      (y : ℤ) + o1.dy < 0 ∨ (height : ℤ) ≤ (y : ℤ) + o1.dy
  · rw [if_pos c1] at h1
    cases h1
  by_cases c2 : (x : ℤ) + o2.dx < 0 ∨ (width : ℤ) ≤ (x : ℤ) + o2.dx ∨
      (y : ℤ) + o2.dy < 0 ∨ (height : ℤ) ≤ (y : ℤ) + o2.dy
  · rw [if_pos c2] at h2
    cases h2
  rw [if_neg c1] at h1
  rw [if_neg c2] at h2
  injection h1 with h1
  injection h2 with h2
  push_neg at c1 c2
  have hv1 : 0 ≤ ((y : ℤ) + o1.dy) * width + ((x : ℤ) + o1.dx) := by
    have := mul_nonneg c1.2.2.1 (by positivity : (0:ℤ) ≤ width)
    linarith [c1.1]
  have hv2 : 0 ≤ ((y : ℤ) + o2.dy) * width + ((x : ℤ) + o2.dx) := by
    have := mul_nonneg c2.2.2.1 (by positivity : (0:ℤ) ≤ width)
    linarith [c2.1]
  have heq : ((y : ℤ) + o1.dy) * width + ((x : ℤ) + o1.dx) =
      ((y : ℤ) + o2.dy) * width + ((x : ℤ) + o2.dx) := by
    have e1 := Int.toNat_of_nonneg hv1
    have e2 := Int.toNat_of_nonneg hv2
    rw [← e1, ← e2, h1, h2]
  have hdy : (y : ℤ) + o1.dy = (y : ℤ) + o2.dy := by
    rcases lt_trichotomy ((y : ℤ) + o1.dy) ((y : ℤ) + o2.dy) with hlt | he | hlt
    · exfalso
      have hs : (y : ℤ) + o1.dy + 1 ≤ (y : ℤ) + o2.dy := hlt
      have := mul_le_mul_of_nonneg_right hs (by positivity : (0:ℤ) ≤ width)
      rw [add_one_mul] at this
      linarith [c1.2.1, c2.1]
    · exact he
    · exfalso
      have hs : (y : ℤ) + o2.dy + 1 ≤ (y : ℤ) + o1.dy := hlt
      have := mul_le_mul_of_nonneg_right hs (by positivity : (0:ℤ) ≤ width)
      rw [add_one_mul] at this
      linarith [c2.2.1, c1.1]
  constructor
  · have : (x : ℤ) + o1.dx = (x : ℤ) + o2.dx := by
      rw [hdy] at heq
      linarith
    omega
  · omega

theorem diffuseFold_ne {width height : ℕ} {elig : ℕ → Bool} {x y : ℕ}
    {er eg eb dv : ℚ} {j : ℕ} :
    ∀ (l : List KOffset) (work : ℕ → ℚ × ℚ × ℚ),
      (∀ o ∈ l, offTargetIdx width height x y o ≠ some j) →
      (l.foldl (fun w o => diffuse width height elig ((x : ℤ) + o.dx)
        ((y : ℤ) + o.dy) er eg eb (o.weight / dv) w) work) j = work j := by
  intro l
  induction l with
  | nil => intro work _; rfl
  | cons a l ih =>
    intro work h
    rw [List.foldl_cons, ih _ (fun o ho => h o (List.mem_cons_of_mem _ ho)),
      diffuse_apply_offTarget_ne a (h a (List.mem_cons_self _ _))]

theorem diffuseFold_inelig {width height : ℕ} {elig : ℕ → Bool} {x y : ℕ}
    {er eg eb dv : ℚ} {j : ℕ} (he : elig j = false) :
    ∀ (l : List KOffset) (work : ℕ → ℚ × ℚ × ℚ),
      (l.foldl (fun w o => diffuse width height elig ((x : ℤ) + o.dx)
        ((y : ℤ) + o.dy) er eg eb (o.weight / dv) w) work) j = work j := by
  intro l
  induction l with
  | nil => intro work; rfl
  | cons a l ih =>
    intro work
    rw [List.foldl_cons, ih _, diffuse_apply_inelig he]

theorem diffuseFold_target {width height : ℕ} {elig : ℕ → Bool} {x y : ℕ}
    {er eg eb dv : ℚ} {o : KOffset} {j : ℕ}
    (hj : offTargetIdx width height x y o = some j) (he : elig j = true) :
    ∀ (l : List KOffset) (work : ℕ → ℚ × ℚ × ℚ),
      l.Pairwise (fun a b => ¬(a.dx = b.dx ∧ a.dy = b.dy)) → o ∈ l →
      (l.foldl (fun w o2 => diffuse width height elig ((x : ℤ) + o2.dx)
        ((y : ℤ) + o2.dy) er eg eb (o2.weight / dv) w) work) j =
      (clampByte ((work j).1 + er * (o.weight / dv)),
       clampByte ((work j).2.1 + eg * (o.weight / dv)),
       clampByte ((work j).2.2 + eb * (o.weight / dv))) := by
  intro l
  induction l with
  | nil => intro work _ ho; cases ho
  | cons a l ih =>
    intro work hpair ho
    obtain ⟨hhead, htail⟩ := List.pairwise_cons.mp hpair
    rw [List.foldl_cons]
    rcases List.mem_cons.mp ho with rfl | ho2
    · have hrest : ∀ o2 ∈ l, offTargetIdx width height x y o2 ≠ some j := by
        intro o2 h2 hcon
        exact hhead o2 h2 ⟨(offTargetIdx_inj hj hcon).1, (offTargetIdx_inj hj hcon).2⟩
      rw [diffuseFold_ne l _ hrest, diffuse_apply_target o hj he]
    · have hna : offTargetIdx width height x y a ≠ some j := by
        intro hcon
        exact hhead o ho2 ⟨(offTargetIdx_inj hcon hj).1,
          (offTargetIdx_inj hcon hj).2⟩
      rw [ih _ htail ho2, diffuse_apply_offTarget_ne a hna]

/-- Every diffusion kernel has pairwise-distinct offsets. -/
theorem getDitherKernel_pairwise (method : String) :
    (getDitherKernel method).offsets.Pairwise
      (fun a b => ¬(a.dx = b.dx ∧ a.dy = b.dy)) := by
  unfold getDitherKernel
  split_ifs <;> decide

/-- The output invariant of the three quantizers: alpha is 0 or 255, and a
fully opaque pixel carries a palette colour. -/
def OkPix (palette : List Rgb) (p : Rgba) : Prop :=
  (p.a = 0 ∨ p.a = 255) ∧ (p.a = 255 → (⟨p.r, p.g, p.b⟩ : Rgb) ∈ palette)

theorem simpleQuantPixel_ok (cc : ColorConv) (palette : List Rgb)
    (opts : QuantOptions) (p : Rgba) (hpal : palette ≠ []) :
    OkPix palette (simpleQuantPixel cc palette opts p).1 := by
  unfold simpleQuantPixel OkPix
  split_ifs with h1 h2
  · exact ⟨Or.inl rfl, fun h => absurd h (by norm_num)⟩
  · exact ⟨Or.inl rfl, fun h => absurd h (by norm_num)⟩
  · exact ⟨Or.inr rfl, fun _ =>
      findClosest_mem cc p.r p.g p.b palette opts.algorithm opts.chroma hpal⟩

theorem orderedDitherPixel_ok (cc : ColorConv) (palette : List Rgb)
    (method : String) (strength : ℚ) (opts : QuantOptions) (rand : ℕ → ℚ)
    (width idx : ℕ) (p : Rgba) (hpal : palette ≠ []) :
    OkPix palette
      (orderedDitherPixel cc palette method strength opts rand width idx p).1 := by
  unfold orderedDitherPixel OkPix
  split_ifs with h1 h2 h3
  · exact ⟨Or.inl rfl, fun h => absurd h (by norm_num)⟩
  · exact ⟨Or.inl rfl, fun h => absurd h (by norm_num)⟩
  · exact ⟨Or.inr rfl, fun _ => findClosest_mem cc _ _ _ palette
      opts.algorithm opts.chroma hpal⟩
  · exact ⟨Or.inr rfl, fun _ => findClosest_mem cc _ _ _ palette
      opts.algorithm opts.chroma hpal⟩

theorem edStep_skip {cc : ColorConv} {palette : List Rgb} {method : String}
    {opts : QuantOptions} {width height : ℕ} {st : EDState} {idx : ℕ}
    (he : st.eligible idx = false) :
    edStep cc palette method opts width height st idx = st := by
  unfold edStep
  rw [if_pos (by rw [he]; decide)]

theorem edStep_data_eligible (cc : ColorConv) (palette : List Rgb)
    (method : String) (opts : QuantOptions) (width height : ℕ)
    (st : EDState) (idx : ℕ) (hpal : palette ≠ [])
    (he : st.eligible idx = true) :
    ∃ newp : Rgba, OkPix palette newp ∧
      (edStep cc palette method opts width height st idx).data =
        fun j => if j = idx then newp else st.data j := by
  unfold edStep
  rw [if_neg (by rw [he]; decide)]
  by_cases htr : opts.paintTransparentPixels ∧
      (st.data idx).a < opts.transparencyThreshold
  · rw [if_pos htr]
    exact ⟨⟨0, 0, 0, 0⟩, ⟨Or.inl rfl, fun h => absurd h (by norm_num)⟩, rfl⟩
  · rw [if_neg htr]
    exact ⟨_, ⟨Or.inr rfl, fun _ => findClosest_mem cc _ _ _ palette
      opts.algorithm opts.chroma hpal⟩, rfl⟩

/-- Data invariant of the error-diffusion scan: processed eligible pixels
satisfy the output invariant, every other pixel still holds its
initialisation value. -/
theorem edStateAfter_data_inv (cc : ColorConv) (palette : List Rgb)
    (method : String) (opts : QuantOptions) (width height : ℕ)
    (img : ℕ → Rgba) (hpal : palette ≠ []) :
    ∀ k idx,
      ((idx < k ∧ pixelEligible opts (img idx) = true) →
        OkPix palette
          ((edStateAfter cc palette method opts width height img k).data idx)) ∧
      (¬(idx < k ∧ pixelEligible opts (img idx) = true) →
        (edStateAfter cc palette method opts width height img k).data idx =
          (edInit opts img (width * height)).data idx) := by
  intro k
  induction k with
  | zero =>
    intro idx
    exact ⟨fun h => absurd h.1 (Nat.not_lt_zero idx), fun _ => rfl⟩
  | succ k ih =>
    intro idx
    rw [edStateAfter_succ]
    have helig : (edStateAfter cc palette method opts width height img k).eligible =
        fun i => pixelEligible opts (img i) :=
      edStateAfter_eligible cc palette method opts width height img k
    by_cases he : pixelEligible opts (img k) = true
    · obtain ⟨newp, hok, hdata⟩ := edStep_data_eligible cc palette method opts
        width height _ k hpal (by rw [helig]; exact he)
      rw [hdata]
      simp only []
      constructor
      · intro ⟨hlt, helig2⟩
        by_cases hik : idx = k
        · rw [if_pos hik]
          exact hok
        · rw [if_neg hik]
          exact (ih idx).1 ⟨by omega, helig2⟩
      · intro hcon
        have hik : idx ≠ k := by
          intro h
          exact hcon ⟨by omega, h ▸ he⟩
        rw [if_neg hik]
        exact (ih idx).2 (fun ⟨hlt, he2⟩ => hcon ⟨by omega, he2⟩)
    · rw [edStep_skip (by rw [helig]; exact Bool.not_eq_true _ ▸ he)]
      constructor
      · intro ⟨hlt, helig2⟩
        have hik : idx ≠ k := fun h => he (h ▸ helig2)
        exact (ih idx).1 ⟨by omega, helig2⟩
      · intro hcon
        exact (ih idx).2 (fun ⟨hlt, he2⟩ => hcon ⟨by omega, he2⟩)

/-- With strength 0 the per-pixel body of `_applyOrderedDither` coincides
with the body of `applySimpleQuantization` (the perturbation vanishes and
the clamp is the identity on raster bytes). -/
theorem orderedDitherPixel_strength_zero (cc : ColorConv)
    (palette : List Rgb) (method : String) (opts : QuantOptions)
    (rand : ℕ → ℚ) (width idx : ℕ) (p : Rgba) (hp : pixIn255 p) :
    orderedDitherPixel cc palette method 0 opts rand width idx p =
      simpleQuantPixel cc palette opts p := by
  unfold orderedDitherPixel simpleQuantPixel
  split_ifs with h1 h2 h3
  · rfl
  · rfl
  all_goals
    simp only [mul_zero, add_zero]
    rw [min_eq_right hp.1.2, min_eq_right hp.2.1.2, min_eq_right hp.2.2.2,
      max_eq_right hp.1.1, max_eq_right hp.2.1.1, max_eq_right hp.2.2.1]

theorem orderedDither_strength_zero_aux (cc : ColorConv) (palette : List Rgb)
    (method : String) (opts : QuantOptions) (rand : ℕ → ℚ)
    (width height : ℕ) :
    ∀ (l : List Rgba) (s : ℕ), s + l.length ≤ width * height →
      (∀ p ∈ l, pixIn255 p) →
      ((l.enumFrom s).map fun ip =>
          if ip.1 < width * height then
            (orderedDitherPixel cc palette method 0 opts rand width
              ip.1 ip.2).1
          else ip.2) =
        (l.map fun p => (simpleQuantPixel cc palette opts p).1) ∧
      ((l.enumFrom s).map fun ip =>
          if ip.1 < width * height then
            (orderedDitherPixel cc palette method 0 opts rand width
              ip.1 ip.2).2
          else false) =
        (l.map fun p => (simpleQuantPixel cc palette opts p).2) := by
  intro l
  induction l with
  | nil => intro s _ _; exact ⟨rfl, rfl⟩
  | cons p rest ih =>
    intro s hs hpix
    have hslt : s < width * height := by
      simp only [List.length_cons] at hs
      omega
    have hpeq := orderedDitherPixel_strength_zero cc palette method opts rand
      width s p (hpix p (List.mem_cons_self _ _))
    obtain ⟨ih1, ih2⟩ := ih (s + 1)
      (by simp only [List.length_cons] at hs; omega)
      (fun q hq => hpix q (List.mem_cons_of_mem _ hq))
    constructor
    · simp only [List.enumFrom, List.map_cons, if_pos hslt, hpeq, ih1]
    · simp only [List.enumFrom, List.map_cons, if_pos hslt, hpeq, ih2]

/-!
## `resampleDominant`
-/

/-- The 4096-bucket index `((r>>4) << 8) | ((g>>4) << 4) | (b>>4)` of the
dominant-colour histogram. -/
def domBucket (p : ℕ × ℕ × ℕ) : ℕ :=
  (((p.1 >>> 4) <<< 8) ||| ((p.2.1 >>> 4) <<< 4)) ||| (p.2.2 >>> 4)

/-- The running state of the per-block histogram scan (`counts.fill(0)`,
`bestIdx = 0`, `bestCount = -1` at block start). -/
structure DomState where
  counts : ℕ → ℕ
  bestIdx : ℕ
  bestCount : ℤ

/-- One pixel of the block scan: increment the pixel's bucket and take over
the lead on a strictly greater count. -/
def domStep (st : DomState) (p : ℕ × ℕ × ℕ) : DomState :=
  let idx := domBucket p
  let c := st.counts idx + 1
  let counts2 := fun j => if j = idx then c else st.counts j
  if st.bestCount < (c : ℤ) then ⟨counts2, idx, (c : ℤ)⟩
  else ⟨counts2, st.bestIdx, st.bestCount⟩

/-- The winning bucket of a block. -/
def dominantBucket (pixels : List (ℕ × ℕ × ℕ)) : ℕ :=
  (pixels.foldl domStep ⟨fun _ => 0, 0, -1⟩).bestIdx

/-- The source block feeding destination pixel `(x, y)`: rows
`y·factor … min(sh, y·factor+factor)`, columns likewise, row-major,
clamped to the source bounds. -/
def blockPixels (src : ℕ → ℕ × ℕ × ℕ × ℕ) (sw sh factor x y : ℕ) :
    List (ℕ × ℕ × ℕ) :=
  ((List.range (min sh (y * factor + factor) - y * factor)).map fun dy =>
    (List.range (min sw (x * factor + factor) - x * factor)).map fun dx =>
      let q := src ((y * factor + dy) * sw + (x * factor + dx))
      (q.1, q.2.1, q.2.2.1)).flatten

/-- `resampleDominant(source, dstW, dstH, factor)`: every destination pixel
is computed independently from its own block (the histogram is refilled with
zeros per block); the winning bucket is decoded as
`((idx>>8)&15)·17, ((idx>>4)&15)·17, (idx&15)·17` with alpha forced to 255.
Pixels outside the destination keep the zero-initialised `createImageData`
value. -/
def resampleDominant (src : ℕ → ℕ × ℕ × ℕ × ℕ) (sw sh dstW dstH factor : ℕ) :
    ℕ → ℕ × ℕ × ℕ × ℕ := fun q =>
  if q < dstW * dstH then
    let idx := dominantBucket (blockPixels src sw sh factor (q % dstW) (q / dstW))
    (((idx >>> 8) &&& 15) * 17, ((idx >>> 4) &&& 15) * 17, (idx &&& 15) * 17,
      255)
  else (0, 0, 0, 0)

theorem domScan_counts :
    ∀ (l : List (ℕ × ℕ × ℕ)) (st : DomState) (j : ℕ),
      (l.foldl domStep st).counts j =
        st.counts j + l.countP (fun p => decide (domBucket p = j)) := by
  intro l
  induction l with
  | nil => intro st j; simp
  | cons p rest ih =>
    intro st j
    rw [List.foldl_cons, ih, List.countP_cons]
    have hstep : (domStep st p).counts j =
        if j = domBucket p then st.counts j + 1 else st.counts j := by
      simp only [domStep]
      split_ifs <;> simp_all
    rw [hstep]
    by_cases h1 : j = domBucket p
    · rw [if_pos h1, if_pos (by simp [h1])]
      omega
    · rw [if_neg h1, if_neg (by simp [Ne.symm h1])]
      omega

/-- Invariant of the histogram scan: either nothing has been counted yet
(`bestCount = -1`, all-zero histogram) or the lead is a positive count
attained at `bestIdx` which no bucket exceeds. -/
def DomInv (st : DomState) : Prop :=
  (st.bestCount = -1 ∧ ∀ j, st.counts j = 0) ∨
    (0 < st.bestCount ∧ (st.counts st.bestIdx : ℤ) = st.bestCount ∧
      ∀ j, (st.counts j : ℤ) ≤ st.bestCount)

theorem domStep_inv (st : DomState) (p : ℕ × ℕ × ℕ) (h : DomInv st) :
    DomInv (domStep st p) := by
  simp only [domStep]
  split_ifs with hlt
  · right
    refine ⟨?_, ?_, ?_⟩
    · push_cast
      omega
    · simp
    · intro j
      simp only []
      split_ifs with hj
      · exact le_refl _
      · rcases h with ⟨hneg, hz⟩ | ⟨hpos, hbest, hub⟩
        · rw [hz j]
          push_cast
          omega
        · have h1 := hub j
          push_cast
          push_cast at h1 hlt
          omega
  · rcases h with ⟨hneg, hz⟩ | ⟨hpos, hbest, hub⟩
    · exfalso
      apply hlt
      rw [hneg]
      push_cast
      omega
    · right
      have hne : st.bestIdx ≠ domBucket p := by
        intro he
        apply hlt
        rw [he] at hbest
        omega
      refine ⟨hpos, ?_, ?_⟩
      · simp only []
        rw [if_neg hne]
        exact hbest
      · intro j
        simp only []
        split_ifs with hj
        · omega
        · exact hub j

theorem domScan_inv (l : List (ℕ × ℕ × ℕ)) (st : DomState) (h : DomInv st) :
    DomInv (l.foldl domStep st) := by
  induction l generalizing st with
  | nil => exact h
  | cons p rest ih => exact ih _ (domStep_inv st p h)

/-- A strict-majority colour `c` of the block wins the histogram:
`dominantBucket` returns its bucket. -/
theorem dominantBucket_majority (pixels : List (ℕ × ℕ × ℕ)) (c : ℕ × ℕ × ℕ)
    (hmaj : pixels.length < 2 * pixels.countP (fun p => decide (p = c))) :
    dominantBucket pixels = domBucket c := by
  set st := pixels.foldl domStep ⟨fun _ => 0, 0, -1⟩ with hst
  have hcounts : ∀ j, st.counts j =
      pixels.countP (fun p => decide (domBucket p = j)) := by
    intro j
    rw [hst, domScan_counts]
    simp
  have hinv : DomInv st := domScan_inv pixels _ (Or.inl ⟨rfl, fun _ => rfl⟩)
  have hq : pixels.countP (fun p => decide (p = c)) ≤
      pixels.countP (fun p => decide (domBucket p = domBucket c)) := by
    refine List.countP_mono_left ?_
    intro a _ ha
    simp only [decide_eq_true_eq] at ha ⊢
    rw [ha]
  have hcpos : 0 < st.counts (domBucket c) := by
    rw [hcounts]
    omega
  rcases hinv with ⟨_, hz⟩ | ⟨hpos, hbest, hub⟩
  · rw [hz (domBucket c)] at hcpos
    omega
  · show st.bestIdx = domBucket c
    by_contra hne
    set P : ℕ × ℕ × ℕ → Bool := fun q => decide (domBucket q = domBucket c)
      with hP
    have h1 : pixels.countP (fun p => decide (domBucket p = st.bestIdx)) ≤
        pixels.countP (fun a => decide (¬P a = true)) := by
      refine List.countP_mono_left ?_
      intro a _ ha
      simp only [hP, decide_eq_true_eq] at ha ⊢
      rw [ha]
      exact hne
    have h2 := pixels.length_eq_countP_add_countP P
    have h3 : st.counts (domBucket c) = pixels.countP P := by
      rw [hP]
      exact hcounts _
    have h4 : st.counts st.bestIdx =
        pixels.countP (fun p => decide (domBucket p = st.bestIdx)) :=
      hcounts _
    have h5 := hub (domBucket c)
    rw [← hbest] at h5
    omega

theorem domBucket_val (r g b : ℕ) (hg : g ≤ 255) (hb : b ≤ 255) :
    domBucket (r, g, b) = (r >>> 4) * 256 + (g >>> 4) * 16 + (b >>> 4) := by
  have p4 : (2 : ℕ) ^ 4 = 16 := by norm_num
  have p8 : (2 : ℕ) ^ 8 = 256 := by norm_num
  have hg4 : g >>> 4 ≤ 15 := by
    rw [Nat.shiftRight_eq_div_pow, p4]
    omega
  have hb4 : b >>> 4 ≤ 15 := by
    rw [Nat.shiftRight_eq_div_pow, p4]
    omega
  have hlt1 : (g >>> 4) <<< 4 < 2 ^ 8 := by
    rw [Nat.shiftLeft_eq, p4, p8]
    omega
  have h1 : ((r >>> 4) <<< 8) ||| ((g >>> 4) <<< 4) =
      (r >>> 4) * 256 + (g >>> 4) * 16 := by
    rw [shiftLeft_lor_eq_add 8 _ _ hlt1, p8, Nat.shiftLeft_eq, p4]
  have h2 : (r >>> 4) * 256 + (g >>> 4) * 16 =
      ((r >>> 4) * 16 + (g >>> 4)) <<< 4 := by
    rw [Nat.shiftLeft_eq, p4]
    ring
  have hlt2 : b >>> 4 < 2 ^ 4 := by
    rw [p4]
    omega
  show (((r >>> 4) <<< 8) ||| ((g >>> 4) <<< 4)) ||| (b >>> 4) = _
  rw [h1, h2, shiftLeft_lor_eq_add 4 _ _ hlt2, Nat.shiftLeft_eq, p4]

/-- Decoding of the winning bucket back to its representative nibbles,
as on lines 393-395 of the source. -/
theorem domBucket_decode (r g b : ℕ) (hr : r ≤ 255) (hg : g ≤ 255)
    (hb : b ≤ 255) :
    (domBucket (r, g, b) >>> 8) &&& 15 = r >>> 4 ∧
      (domBucket (r, g, b) >>> 4) &&& 15 = g >>> 4 ∧
      domBucket (r, g, b) &&& 15 = b >>> 4 := by
  have hand : ∀ n : ℕ, n &&& 15 = n % 16 := by
    intro n
    have h15 : (15 : ℕ) = 2 ^ 4 - 1 := by norm_num
    rw [h15, Nat.and_pow_two_sub_one_eq_mod]
  have hsh : ∀ n : ℕ, n >>> 4 = n / 16 := by
    intro n
    rw [Nat.shiftRight_eq_div_pow]
  have hsh8 : ∀ n : ℕ, n >>> 8 = n / 256 := by
    intro n
    rw [Nat.shiftRight_eq_div_pow]
  rw [domBucket_val r g b hg hb]
  simp only [hand, hsh, hsh8]
  omega

/-- If the block feeding destination pixel `(x, y)` has a strict-majority
colour `(r, g, b)`, `resampleDominant` writes that colour's bucket
representative there, with alpha forced to 255. -/
theorem resampleDominant_majority (src : ℕ → ℕ × ℕ × ℕ × ℕ)
    (sw sh dstW dstH factor x y r g b : ℕ)
    (hr : r ≤ 255) (hg : g ≤ 255) (hb : b ≤ 255)
    (hx : x < dstW) (hy : y < dstH)
    (hmaj : (blockPixels src sw sh factor x y).length <
      2 * (blockPixels src sw sh factor x y).countP
        (fun p => decide (p = (r, g, b)))) :
    resampleDominant src sw sh dstW dstH factor (y * dstW + x) =
      ((r >>> 4) * 17, (g >>> 4) * 17, (b >>> 4) * 17, 255) := by
  have hdw : 0 < dstW := by omega
  have hq : y * dstW + x < dstW * dstH := by
    have h1 : y * dstW + x < (y + 1) * dstW := by
      calc y * dstW + x < y * dstW + dstW := Nat.add_lt_add_left hx _
        _ = (y + 1) * dstW := by ring
    have h2 : (y + 1) * dstW ≤ dstH * dstW :=
      Nat.mul_le_mul_right _ (Nat.succ_le_of_lt hy)
    calc y * dstW + x < (y + 1) * dstW := h1
      _ ≤ dstH * dstW := h2
      _ = dstW * dstH := Nat.mul_comm _ _
  have hmod : (y * dstW + x) % dstW = x := by
    rw [Nat.add_comm, Nat.add_mul_mod_self_right, Nat.mod_eq_of_lt hx]
  have hdiv : (y * dstW + x) / dstW = y := by
    rw [Nat.mul_comm y dstW, Nat.mul_add_div hdw, Nat.div_eq_of_lt hx]
    omega
  simp only [resampleDominant]
  rw [if_pos hq, hmod, hdiv]
  rw [dominantBucket_majority _ _ hmaj]
  obtain ⟨d1, d2, d3⟩ := domBucket_decode r g b hr hg hb
  rw [d1, d2, d3]

/-!
## `simplifyRegions`

Rasters are `ℕ → ℕ × ℕ × ℕ × ℕ` (linear pixel index to RGBA bytes).
`borderColors` is a JavaScript object with non-negative integer keys below
2^32 - 1, so `for (const ks in borderColors)` iterates them in ascending
numeric order; we model it as an association list kept sorted ascending by
key, so that list order is iteration order.
-/

/-- The 24-bit colour key `((r << 16) | (g << 8) | b) >>> 0`. -/
def rgbKey (c : ℕ × ℕ × ℕ × ℕ) : ℕ :=
  ((c.1 <<< 16) ||| (c.2.1 <<< 8)) ||| c.2.2.1

/-- `borderColors[k2] = (borderColors[k2] || 0) + 1`, keeping the keys
sorted ascending. -/
def borderInc : List (ℕ × ℕ) → ℕ → List (ℕ × ℕ)
  | [], k => [(k, 1)]
  | (k0, c) :: rest, k =>
    if k < k0 then (k, 1) :: (k0, c) :: rest
    else if k = k0 then (k0, c + 1) :: rest
    else (k0, c) :: borderInc rest k

/-- `bestKey` after the `for..in` scan: strict `>` updates starting from
`bestKey = -1`, `bestCnt = -1`. -/
def bestBorderKey (l : List (ℕ × ℕ)) : ℤ :=
  (l.foldl
    (fun (acc : ℤ × ℤ) kv =>
      if acc.2 < (kv.2 : ℤ) then ((kv.1 : ℤ), (kv.2 : ℤ)) else acc)
    (-1, -1)).1

/-- The flood-fill working state: the shared `visited` mask, the pending
queue slice `qx/qy[qs..qe)`, the component's pixel indices, and the border
colour histogram. -/
structure BfsState where
  visited : ℕ → Bool
  queue : List (ℕ × ℕ)
  comp : List ℕ
  border : List (ℕ × ℕ)

def neighborOffsets : List (ℤ × ℤ) := [(1, 0), (-1, 0), (0, 1), (0, -1)]

/-- One neighbour inspection of the flood fill (source lines 1594-1620):
out-of-bounds and already-visited neighbours are skipped (a visited
neighbour is skipped before its colour is read, so it is never counted as
border), transparent ones are marked visited, same-key ones are enqueued,
and differing opaque unvisited ones bump the border histogram without
being marked. -/
def bfsVisitNeighbor (result : ℕ → ℕ × ℕ × ℕ × ℕ) (width height key : ℕ)
    (st : BfsState) (c : ℕ × ℕ) (d : ℤ × ℤ) : BfsState :=
  let nx : ℤ := (c.1 : ℤ) + d.1
  let ny : ℤ := (c.2 : ℤ) + d.2
  if nx < 0 ∨ ny < 0 ∨ (width : ℤ) ≤ nx ∨ (height : ℤ) ≤ ny then st
  else
    let l2 := (ny * width + nx).toNat
    if st.visited l2 then st
    else
      let q := result l2
      if q.2.2.2 < 128 then
        { st with visited := fun i => if i = l2 then true else st.visited i }
      else
        let k2 := rgbKey q
        if k2 = key then
          { st with
            visited := fun i => if i = l2 then true else st.visited i
            queue := st.queue ++ [(nx.toNat, ny.toNat)] }
        else { st with border := borderInc st.border k2 }

/-- The `while (qs < qe)` loop, with explicit fuel; the caller passes
`width * height` fuel, which bounds the number of enqueues. -/
def bfsRun (result : ℕ → ℕ × ℕ × ℕ × ℕ) (width height key : ℕ) :
    ℕ → BfsState → BfsState
  | 0, st => st
  | fuel + 1, st =>
    match st.queue with
    | [] => st
    | c :: rest =>
      let st1 : BfsState :=
        { st with queue := rest, comp := st.comp ++ [c.2 * width + c.1] }
      let st2 := neighborOffsets.foldl
        (fun s d => bfsVisitNeighbor result width height key s c d) st1
      bfsRun result width height key fuel st2

/-- The mutable outer state: the `result` copy being repainted and the
`visited` mask. -/
structure RegState where
  result : ℕ → ℕ × ℕ × ℕ × ℕ
  visited : ℕ → Bool

/-- One iteration of the row-major outer scan at linear index `li`
(source lines 1560-1647): skip visited pixels, mark-and-skip transparent
ones, flood-fill the component of the current colour key, and repaint it
to the best border colour when `0 < comp.length < thr` and a border colour
exists. -/
def regionStep (width height : ℕ) (thr : ℤ) (st : RegState) (li : ℕ) :
    RegState :=
  if st.visited li then st
  else
    let p := st.result li
    if p.2.2.2 < 128 then
      { st with visited := fun i => if i = li then true else st.visited i }
    else
      let key := rgbKey p
      let st0 : BfsState :=
        ⟨fun i => if i = li then true else st.visited i,
          [(li % width, li / width)], [], []⟩
      let stb := bfsRun st.result width height key (width * height) st0
      if 0 < stb.comp.length ∧ (stb.comp.length : ℤ) < thr then
        let bk := bestBorderKey stb.border
        if 0 ≤ bk then
          { result := fun i =>
              if i ∈ stb.comp then
                ((bk.toNat >>> 16) &&& 255, (bk.toNat >>> 8) &&& 255,
                  bk.toNat &&& 255, 255)
              else st.result i
            visited := stb.visited }
        else { st with visited := stb.visited }
      else { st with visited := stb.visited }

/-- `simplifyRegions(imageData, width, height, minArea)`: returns a copy
unchanged when `minArea ≤ 0` or a dimension is zero, otherwise runs the
outer scan with threshold `max(1, ⌊minArea⌋)`. -/
def simplifyRegions (img : ℕ → ℕ × ℕ × ℕ × ℕ) (width height : ℕ)
    (minArea : ℚ) : ℕ → ℕ × ℕ × ℕ × ℕ :=
  if minArea ≤ 0 then img
  else if width = 0 ∨ height = 0 then img
  else
    ((List.range (width * height)).foldl
      (regionStep width height (max 1 ⌊minArea⌋)) ⟨img, fun _ => false⟩).result

theorem regionStep_result_thr_one (width height : ℕ) (st : RegState)
    (li : ℕ) : (regionStep width height 1 st li).result = st.result := by
  simp only [regionStep]
  split_ifs with h1 h2 h3 h4
  · rfl
  · rfl
  · exact absurd h3 (by omega)
  · exact absurd h3 (by omega)
  · rfl

/-!
## IEEE special values and the LUV round trip

`Math.pow`-free paths of `_rgbToXyz` / `_xyzToRgb` / `_rgbToLuv` /
`_luvToRgb` use only rational arithmetic plus the IEEE special values, so
we model a JavaScript number as a rational or one of NaN / +Infinity /
-Infinity (negative zero is identified with zero, which is harmless here:
every division with a zero numerator and zero denominator is NaN
regardless of signs). `Math.pow` itself is an arbitrary parameter `powF`;
on the paths below every call to it is guarded by a comparison that
evaluates to false, so no property of it is needed. -/
inductive JSNum where
  | num : ℚ → JSNum
  | nan : JSNum
  | pinf : JSNum
  | ninf : JSNum
deriving DecidableEq, Repr

namespace JSNum

def jadd : JSNum → JSNum → JSNum
  | nan, _ => nan
  | _, nan => nan
  | num a, num b => num (a + b)
  | pinf, ninf => nan
  | ninf, pinf => nan
  | pinf, _ => pinf
  | _, pinf => pinf
  | ninf, _ => ninf
  | _, ninf => ninf

def jsub : JSNum → JSNum → JSNum
  | nan, _ => nan
  | _, nan => nan
  | num a, num b => num (a - b)
  | pinf, pinf => nan
  | ninf, ninf => nan
  | pinf, _ => pinf
  | _, pinf => ninf
  | ninf, _ => ninf
  | _, ninf => pinf

def jmul : JSNum → JSNum → JSNum
  | nan, _ => nan
  | _, nan => nan
  | num a, num b => num (a * b)
  | num a, pinf => if a = 0 then nan else if 0 < a then pinf else ninf
  | num a, ninf => if a = 0 then nan else if 0 < a then ninf else pinf
  | pinf, num b => if b = 0 then nan else if 0 < b then pinf else ninf
  | ninf, num b => if b = 0 then nan else if 0 < b then ninf else pinf
  | pinf, pinf => pinf
  | pinf, ninf => ninf
  | ninf, pinf => ninf
  | ninf, ninf => pinf

def jdiv : JSNum → JSNum → JSNum
  | nan, _ => nan
  | _, nan => nan
  | num a, num b =>
    if b = 0 then (if a = 0 then nan else if 0 < a then pinf else ninf)
    else num (a / b)
  | num _, pinf => num 0
  | num _, ninf => num 0
  | pinf, num b => if 0 ≤ b then pinf else ninf
  | ninf, num b => if 0 ≤ b then ninf else pinf
  | pinf, _ => nan
  | ninf, _ => nan

/-- `a < b` with the IEEE rule that any comparison involving NaN is false. -/
def jlt : JSNum → JSNum → Bool
  | nan, _ => false
  | _, nan => false
  | num a, num b => decide (a < b)
  | pinf, pinf => false
  | ninf, ninf => false
  | ninf, _ => true
  | _, pinf => true
  | pinf, _ => false
  | _, ninf => false

/-- `Math.max`: NaN-propagating. -/
def jmax : JSNum → JSNum → JSNum
  | nan, _ => nan
  | _, nan => nan
  | a, b => if jlt a b then b else a

/-- `Math.min`: NaN-propagating. -/
def jmin : JSNum → JSNum → JSNum
  | nan, _ => nan
  | _, nan => nan
  | a, b => if jlt b a then b else a

/-- `Math.round`: `⌊q + 1/2⌋` on finite values, identity on specials. -/
def jround : JSNum → JSNum
  | num q => num ⌊q + 1 / 2⌋
  | x => x

end JSNum

open JSNum in
/-- `_rgbToXyz(r, g, b)` over IEEE values, `Math.pow` abstracted. -/
def rgbToXyz (powF : JSNum → JSNum → JSNum) (r g b : JSNum) :
    JSNum × JSNum × JSNum :=
  let x := jdiv r (num 255)
  let y := jdiv g (num 255)
  let z := jdiv b (num 255)
  let x1 := if jlt (num 0.04045) x then
      powF (jdiv (jadd x (num 0.055)) (num 1.055)) (num 2.4)
    else jdiv x (num 12.92)
  let y1 := if jlt (num 0.04045) y then
      powF (jdiv (jadd y (num 0.055)) (num 1.055)) (num 2.4)
    else jdiv y (num 12.92)
  let z1 := if jlt (num 0.04045) z then
      powF (jdiv (jadd z (num 0.055)) (num 1.055)) (num 2.4)
    else jdiv z (num 12.92)
  (jadd (jadd (jmul x1 (num 0.4124564)) (jmul y1 (num 0.3575761)))
      (jmul z1 (num 0.1804375)),
    jadd (jadd (jmul x1 (num 0.2126729)) (jmul y1 (num 0.7151522)))
      (jmul z1 (num 0.0721750)),
    jadd (jadd (jmul x1 (num 0.0193339)) (jmul y1 (num 0.1191920)))
      (jmul z1 (num 0.9503041)))

open JSNum in
/-- `_xyzToRgb(x, y, z)` over IEEE values, `Math.pow` abstracted. -/
def xyzToRgb (powF : JSNum → JSNum → JSNum) (x y z : JSNum) :
    JSNum × JSNum × JSNum :=
  let r := jadd (jadd (jmul x (num 3.2404542)) (jmul y (num (-1.5371385))))
    (jmul z (num (-0.4985314)))
  let g := jadd (jadd (jmul x (num (-0.9692660))) (jmul y (num 1.8760108)))
    (jmul z (num 0.0415560))
  let b := jadd (jadd (jmul x (num 0.0556434)) (jmul y (num (-0.2040259))))
    (jmul z (num 1.0572252))
  let r1 := if jlt (num 0.0031308) r then
      jsub (jmul (num 1.055) (powF r (num (1 / 2.4)))) (num 0.055)
    else jmul (num 12.92) r
  let g1 := if jlt (num 0.0031308) g then
      jsub (jmul (num 1.055) (powF g (num (1 / 2.4)))) (num 0.055)
    else jmul (num 12.92) g
  let b1 := if jlt (num 0.0031308) b then
      jsub (jmul (num 1.055) (powF b (num (1 / 2.4)))) (num 0.055)
    else jmul (num 12.92) b
  (jround (jmul (jmax (num 0) (jmin (num 1) r1)) (num 255)),
    jround (jmul (jmax (num 0) (jmin (num 1) g1)) (num 255)),
    jround (jmul (jmax (num 0) (jmin (num 1) b1)) (num 255)))

open JSNum in
/-- `_rgbToLuv(r, g, b)`: note the forward direction special-cases
`denom === 0` to avoid a division by zero. -/
def rgbToLuv (powF : JSNum → JSNum → JSNum) (r g b : JSNum) :
    JSNum × JSNum × JSNum :=
  let XYZ := rgbToXyz powF r g b
  let X := XYZ.1
  let Y := XYZ.2.1
  let Z := XYZ.2.2
  let yr := jdiv Y (num 1)
  let L := if jlt (num 0.008856) yr then
      jsub (jmul (num 116) (powF yr (num (1 / 3)))) (num 16)
    else jmul (num 903.3) yr
  let denom := jadd (jadd X (jmul (num 15) Y)) (jmul (num 3) Z)
  let denomN := jadd (jadd (num 0.95047) (jmul (num 15) (num 1)))
    (jmul (num 3) (num 1.08883))
  let up := if denom = num 0 then num 0 else jdiv (jmul (num 4) X) denom
  let vp := if denom = num 0 then num 0 else jdiv (jmul (num 9) Y) denom
  let upN := jdiv (jmul (num 4) (num 0.95047)) denomN
  let vpN := jdiv (jmul (num 9) (num 1)) denomN
  (L, jmul (jmul (num 13) L) (jsub up upN),
    jmul (jmul (num 13) L) (jsub vp vpN))

open JSNum in
/-- `_luvToRgb(l, u, v)`: the inverse has no guard on `l = 0` — `up` and
`vp` divide by `13 * l` unconditionally. -/
def luvToRgb (powF : JSNum → JSNum → JSNum) (l u v : JSNum) :
    JSNum × JSNum × JSNum :=
  let denomN := jadd (jadd (num 0.95047) (jmul (num 15) (num 1)))
    (jmul (num 3) (num 1.08883))
  let upN := jdiv (jmul (num 4) (num 0.95047)) denomN
  let vpN := jdiv (jmul (num 9) (num 1)) denomN
  let Y := if jlt (num 8) l then
      jmul (num 1) (powF (jdiv (jadd l (num 16)) (num 116)) (num 3))
    else jdiv (jmul (num 1) l) (num 903.3)
  let up := jadd (jdiv u (jmul (num 13) l)) upN
  let vp := jadd (jdiv v (jmul (num 13) l)) vpN
  let X := jdiv (jmul (jmul Y (num 9)) up) (jmul (num 4) vp)
  let Z := jdiv
    (jmul Y (jsub (jsub (num 12) (jmul (num 3) up)) (jmul (num 20) vp)))
    (jmul (num 4) vp)
  xyzToRgb powF X Y Z

open JSNum in
/-- C4: the claimed ±1 round trip fails for LUV at black.  `_rgbToLuv`
yields `L = 0` (with `u = v = 0` thanks to its `denom === 0` guard), and
`_luvToRgb` then computes `0 / (13·0) = NaN`, which propagates through
every channel: the LUV round trip of `(0, 0, 0)` is `(NaN, NaN, NaN)`,
whatever `Math.pow` does (every call to it is behind a comparison that is
false on this path). -/
theorem C4_luv_roundtrip_black_nan (powF powG : JSNum → JSNum → JSNum) :
    (fun lv => luvToRgb powF lv.1 lv.2.1 lv.2.2)
      (rgbToLuv powG (num 0) (num 0) (num 0)) = (nan, nan, nan) := by
  simp only [rgbToLuv, luvToRgb, rgbToXyz, xyzToRgb]
  norm_num [jdiv, jadd, jmul, jsub, jlt, jmax, jmin, jround]

theorem simplifyRegions_minArea_one (img : ℕ → ℕ × ℕ × ℕ × ℕ)
    (width height : ℕ) : simplifyRegions img width height 1 = img := by
  simp only [simplifyRegions]
  rw [if_neg (by norm_num)]
  split_ifs with h
  · rfl
  · have hthr : (max 1 ⌊(1 : ℚ)⌋ : ℤ) = 1 := by norm_num
    rw [hthr]
    have key : ∀ (l : List ℕ) (st : RegState),
        (l.foldl (regionStep width height 1) st).result = st.result := by
      intro l
      induction l with
      | nil => intro st; rfl
      | cons a rest ih =>
        intro st
        rw [List.foldl_cons, ih, regionStep_result_thr_one]
    rw [key]

/-!
## The claims
-/

theorem first_zero_split (sc : Rgb → ℚ) :
    ∀ (l : List Rgb) (x : Rgb), x ∈ l → sc x = 0 →
      ∃ l₁ e l₂, l = l₁ ++ e :: l₂ ∧ sc e = 0 ∧ ∀ y ∈ l₁, sc y ≠ 0 := by
  intro l
  induction l with
  | nil => intro x hx; cases hx
  | cons a rest ih =>
    intro x hx hxz
    by_cases ha : sc a = 0
    · exact ⟨[], a, rest, rfl, ha, fun y hy => absurd hy (List.not_mem_nil y)⟩
    · rcases List.mem_cons.mp hx with rfl | hx2
      · exact absurd hxz ha
      · obtain ⟨l₁, e, l₂, heq, hez, hl₁⟩ := ih x hx2 hxz
        refine ⟨a :: l₁, e, l₂, by rw [List.cons_append, heq], hez, ?_⟩
        intro y hy
        rcases List.mem_cons.mp hy with rfl | hy2
        · exact ha
        · exact hl₁ y hy2

/-- On a palette containing a zero-scoring entry (scores nonnegative, zero
only at the target), the scan returns the target. -/
theorem scanLoop_exact (sc : Rgb → ℚ) (palette : List Rgb) (t : Rgb)
    (hmem : t ∈ palette) (hzt : sc t = 0)
    (hnneg : ∀ p ∈ palette, 0 ≤ sc p)
    (hzero : ∀ p ∈ palette, sc p = 0 → p = t) :
    scanLoop sc palette ⟨0, 0, 0⟩ none = t := by
  obtain ⟨l₁, e, l₂, heq, hez, hl₁⟩ := first_zero_split sc palette t hmem hzt
  have he_mem : e ∈ palette := by
    rw [heq]
    exact List.mem_append_right _ (List.mem_cons_self _ _)
  have h1 : ∀ p ∈ l₁, sc e < sc p := by
    intro p hp
    have hpmem : p ∈ palette := by
      rw [heq]
      exact List.mem_append_left _ hp
    rw [hez]
    exact lt_of_le_of_ne (hnneg p hpmem) (Ne.symm (hl₁ p hp))
  have h2 : ∀ p ∈ l₂, sc e ≤ sc p := by
    intro p hp
    have hpmem : p ∈ palette := by
      rw [heq]
      exact List.mem_append_right _ (List.mem_cons_of_mem _ hp)
    rw [hez]
    exact hnneg p hpmem
  rw [heq, scanLoop_first_min sc e l₁ l₂ ⟨0, 0, 0⟩ none h1 h2
    (fun d hd => Option.noConfusion hd)]
  exact hzero e he_mem hez

/-- C2: with byte channels, a palette containing the exact target colour,
any algorithm among rgb/hsv/oklab/lab (nonnegative chroma-penalty weight)
and colour conversions injective on byte colours,
`findClosestPaletteColor` returns the exact target; in general the first
entry attaining the strictly lowest score wins; and in `resolveColor`'s
scan (the loop with the `break`; `findClosestPaletteColor`'s own loop has
no break), a zero-distance entry short-circuits: entries after it are
never examined. -/
theorem C2_matcher_exact_first_break (cc : ColorConv) (t : Rgb)
    (palette : List Rgb) (algorithm : String) (opts : ChromaOptions)
    (score' : PalEntry → ℚ) (e' : PalEntry)
    (ht : RgbBytes t) (hpal : ∀ p ∈ palette, RgbBytes p)
    (halg : algorithm = "rgb" ∨ algorithm = "hsv" ∨ algorithm = "oklab" ∨
      algorithm = "lab")
    (hw : 0 ≤ opts.chromaPenaltyWeight)
    (hinjL : ∀ c1 c2 : Rgb, RgbBytes c1 → RgbBytes c2 →
      cc.labF c1.r c1.g c1.b = cc.labF c2.r c2.g c2.b → c1 = c2)
    (hinjO : ∀ c1 c2 : Rgb, RgbBytes c1 → RgbBytes c2 →
      cc.oklabF c1.r c1.g c1.b = cc.oklabF c2.r c2.g c2.b → c1 = c2)
    (hmem : t ∈ palette)
    (hnn : ∀ c, 0 ≤ score' c) (hz : score' e' = 0) :
    findClosestPaletteColor cc t.r t.g t.b palette algorithm opts = t ∧
    (∀ (r g b : ℚ) (l₁ : List Rgb) (e : Rgb) (l₂ : List Rgb),
      palette = l₁ ++ e :: l₂ →
      (∀ p ∈ l₁, algScore cc opts algorithm ⟨r, g, b⟩ e <
        algScore cc opts algorithm ⟨r, g, b⟩ p) →
      (∀ p ∈ l₂, algScore cc opts algorithm ⟨r, g, b⟩ e ≤
        algScore cc opts algorithm ⟨r, g, b⟩ p) →
      findClosestPaletteColor cc r g b palette algorithm opts = e) ∧
    (∀ (pre post post' : List PalEntry) (bid : ℤ) (brgb : Rgb),
      resolveScan score' (pre ++ e' :: post) bid brgb none =
        resolveScan score' (pre ++ e' :: post') bid brgb none) := by
  have hne : palette ≠ [] := List.ne_nil_of_mem hmem
  have htt : (⟨t.r, t.g, t.b⟩ : Rgb) = t := rfl
  refine ⟨?_, ?_, ?_⟩
  · rw [findClosest_eq_scanLoop cc t.r t.g t.b palette algorithm opts hne]
    rcases halg with ha | ha | ha | ha <;> subst ha
    · have hsc : algScore cc opts "rgb" ⟨t.r, t.g, t.b⟩ =
          rgbDistSq ⟨t.r, t.g, t.b⟩ := if_pos rfl
      rw [hsc, htt]
      exact scanLoop_exact (rgbDistSq t) palette t hmem (rgbDistSq_self t)
        (fun p hp => rgbDistSq_nonneg ht (hpal p hp))
        (fun p hp hz0 => rgbDistSq_eq_zero ht (hpal p hp) hz0)
    · have hsc : algScore cc opts "hsv" ⟨t.r, t.g, t.b⟩ =
          hsvDist ⟨t.r, t.g, t.b⟩ := by
        unfold algScore
        rw [if_neg (by decide), if_pos rfl]
      rw [hsc, htt]
      exact scanLoop_exact (hsvDist t) palette t hmem (hsvDist_self t)
        (fun p hp => hsvDist_nonneg t p)
        (fun p hp hz0 => hsvDist_eq_zero (RgbBytes.nonneg ht)
          (RgbBytes.nonneg (hpal p hp)) hz0)
    · have hsc : algScore cc opts "oklab" ⟨t.r, t.g, t.b⟩ =
          oklabDist cc ⟨t.r, t.g, t.b⟩ := by
        unfold algScore
        rw [if_neg (by decide), if_neg (by decide), if_pos rfl]
      rw [hsc, htt]
      exact scanLoop_exact (oklabDist cc t) palette t hmem
        (oklabDist_self cc t)
        (fun p hp => oklabDist_nonneg cc t p)
        (fun p hp hz0 => (hinjO t p ht (hpal p hp) (oklabDist_eq_zero hz0)).symm)
    · have hsc : algScore cc opts "lab" ⟨t.r, t.g, t.b⟩ =
          labDist cc opts ⟨t.r, t.g, t.b⟩ := by
        unfold algScore
        rw [if_neg (by decide), if_neg (by decide), if_neg (by decide)]
      rw [hsc, htt]
      exact scanLoop_exact (labDist cc opts t) palette t hmem
        (labDist_self cc opts t)
        (fun p hp => labDist_nonneg cc opts t p hw)
        (fun p hp hz0 => (hinjL t p ht (hpal p hp) (labDist_eq_zero hw hz0)).symm)
  · intro r g b l₁ e l₂ heq h1 h2
    rw [findClosest_eq_scanLoop cc r g b palette algorithm opts hne, heq]
    exact scanLoop_first_min (algScore cc opts algorithm ⟨r, g, b⟩) e l₁ l₂
      ⟨0, 0, 0⟩ none h1 h2 (fun d hd => Option.noConfusion hd)
  · intro pre post post' bid brgb
    exact resolveScan_break score' hnn e' hz pre post post' bid brgb none
      (fun d hd => Option.noConfusion hd)

/-- A concrete run of the matcher contract: identity-tuple conversions
(injective on bytes), target `(1,2,3)`, the singleton palette containing
exactly that colour, LAB matching. -/
theorem C2_witness :
    RgbBytes ⟨1, 2, 3⟩ ∧ (⟨1, 2, 3⟩ : Rgb) ∈ [(⟨1, 2, 3⟩ : Rgb)] ∧
      (findClosestPaletteColor
          ⟨fun a b c => (a, b, c), fun a b c => (a, b, c), fun _ => 0⟩
          1 2 3 [⟨1, 2, 3⟩] "lab" {} = ⟨1, 2, 3⟩ ∧
        (∀ (r g b : ℚ) (l₁ : List Rgb) (e : Rgb) (l₂ : List Rgb),
          [(⟨1, 2, 3⟩ : Rgb)] = l₁ ++ e :: l₂ →
          (∀ p ∈ l₁,
            algScore ⟨fun a b c => (a, b, c), fun a b c => (a, b, c), fun _ => 0⟩
              {} "lab" ⟨r, g, b⟩ e <
            algScore ⟨fun a b c => (a, b, c), fun a b c => (a, b, c), fun _ => 0⟩
              {} "lab" ⟨r, g, b⟩ p) →
          (∀ p ∈ l₂,
            algScore ⟨fun a b c => (a, b, c), fun a b c => (a, b, c), fun _ => 0⟩
              {} "lab" ⟨r, g, b⟩ e ≤
            algScore ⟨fun a b c => (a, b, c), fun a b c => (a, b, c), fun _ => 0⟩
              {} "lab" ⟨r, g, b⟩ p) →
          findClosestPaletteColor
            ⟨fun a b c => (a, b, c), fun a b c => (a, b, c), fun _ => 0⟩
            r g b [⟨1, 2, 3⟩] "lab" {} = e) ∧
        (∀ (pre post post' : List PalEntry) (bid : ℤ) (brgb : Rgb),
          resolveScan (fun _ => 0) (pre ++ ⟨0, ⟨0, 0, 0⟩⟩ :: post) bid brgb
              none =
            resolveScan (fun _ => 0) (pre ++ ⟨0, ⟨0, 0, 0⟩⟩ :: post') bid brgb
              none)) :=
  have ht : RgbBytes ⟨1, 2, 3⟩ :=
    ⟨⟨1, by norm_num, by norm_num⟩, ⟨2, by norm_num, by norm_num⟩,
      ⟨3, by norm_num, by norm_num⟩⟩
  have hinj : ∀ c1 c2 : Rgb, RgbBytes c1 → RgbBytes c2 →
      (c1.r, c1.g, c1.b) = (c2.r, c2.g, c2.b) → c1 = c2 := by
    intro c1 c2 _ _ h
    injection h with h1 h23
    injection h23 with h2 h3
    exact Rgb.ext h1 h2 h3
  ⟨ht, List.mem_singleton.mpr rfl,
    C2_matcher_exact_first_break
      ⟨fun a b c => (a, b, c), fun a b c => (a, b, c), fun _ => 0⟩
      ⟨1, 2, 3⟩ [⟨1, 2, 3⟩] "lab" {} (fun _ => 0) ⟨0, ⟨0, 0, 0⟩⟩
      ht
      (by
        intro p hp
        rw [List.mem_singleton] at hp
        subst hp
        exact ht)
      (Or.inr (Or.inr (Or.inr rfl)))
      (by show (0 : ℚ) ≤ 0.15; norm_num)
      hinj hinj
      (List.mem_singleton.mpr rfl) (fun c => le_refl 0) rfl⟩

/-- C3 (amended): on an empty (or missing) palette both functions return a
sentinel without scanning and cannot throw, but only `resolveColor` echoes
the target: it returns `{id: null, rgb: target}` and leaves the cache
untouched, while `findClosestPaletteColor` returns the fixed sentinel
`[0, 0, 0]` whatever the target was. -/
theorem C3_empty_palette_sentinel (cc : ColorConv) (r g b : ℚ)
    (algorithm : String) (opts : ChromaOptions) (cache : ColorCache)
    (t : Rgb) (ropts : ResolveOptions) :
    findClosestPaletteColor cc r g b [] algorithm opts = ⟨0, 0, 0⟩ ∧
      resolveColor cc cache t [] ropts = ({ id := none, rgb := t }, cache) :=
  ⟨rfl, rfl⟩

/-- C3 counterexample: with target `(1, 2, 3)` and an empty palette,
`findClosestPaletteColor` returns `[0, 0, 0]`, which is not an echo of the
target colour. -/
theorem C3_counterexample :
    findClosestPaletteColor
        ⟨fun _ _ _ => (0, 0, 0), fun _ _ _ => (0, 0, 0), fun _ => 0⟩
        1 2 3 [] "lab" {} = ⟨0, 0, 0⟩ ∧
      (⟨0, 0, 0⟩ : Rgb) ≠ ⟨1, 2, 3⟩ :=
  ⟨rfl, by decide⟩

/-- C1: with a non-empty palette and a raster of at most `width·height`
pixels, every pixel the three quantizers output has alpha 0 or 255, and
every fully opaque output pixel carries the RGB of some palette entry
(`OkPix`; force-painted transparent pixels get alpha 0, so the palette
condition does not apply to them). -/
theorem C1_quantizer_alpha_palette (cc : ColorConv) (palette : List Rgb)
    (opts : QuantOptions) (method : String) (strength : ℚ) (rand : ℕ → ℚ)
    (data : List Rgba) (img : ℕ → Rgba) (width height : ℕ)
    (hpal : palette ≠ []) (hlen : data.length ≤ width * height) :
    (∀ q ∈ (applySimpleQuantization cc data palette opts).1,
      OkPix palette q) ∧
    (∀ q ∈ (applyOrderedDither cc data width height palette method strength
        opts rand).1, OkPix palette q) ∧
    (∀ idx, idx < width * height →
      OkPix palette
        ((applyErrorDiffusion cc img width height palette method opts).1
          idx)) := by
  refine ⟨?_, ?_, ?_⟩
  · intro q hq
    obtain ⟨p, hp, rfl⟩ := List.mem_map.mp hq
    exact simpleQuantPixel_ok cc palette opts p hpal
  · have aux : ∀ (l : List Rgba) (s : ℕ), s + l.length ≤ width * height →
        ∀ q ∈ (l.enumFrom s).map (fun ip =>
          if ip.1 < width * height then
            (orderedDitherPixel cc palette method strength opts rand width
              ip.1 ip.2).1
          else ip.2), OkPix palette q := by
      intro l
      induction l with
      | nil => intro s _ q hq; simp at hq
      | cons p rest ih =>
        intro s hs q hq
        simp only [List.enumFrom, List.map_cons] at hq
        rcases List.mem_cons.mp hq with rfl | hq2
        · rw [if_pos (by simp only [List.length_cons] at hs; omega)]
          exact orderedDitherPixel_ok cc palette method strength opts rand
            width s p hpal
        · exact ih (s + 1) (by simp only [List.length_cons] at hs; omega) q hq2
    intro q hq
    exact aux data 0 (by omega) q hq
  · intro idx hidx
    have hdata : (applyErrorDiffusion cc img width height palette method
        opts).1 =
        (edStateAfter cc palette method opts width height img
          (width * height)).data := rfl
    rw [hdata]
    have hinv := edStateAfter_data_inv cc palette method opts width height
      img hpal (width * height) idx
    by_cases he : pixelEligible opts (img idx) = true
    · exact hinv.1 ⟨hidx, he⟩
    · have he' : pixelEligible opts (img idx) = false := by
        revert he
        cases pixelEligible opts (img idx) <;> simp
      rw [hinv.2 (fun hcon => he hcon.2)]
      simp only [edInit]
      rw [if_pos ⟨hidx, by rw [he']; decide⟩]
      exact ⟨Or.inl rfl, fun hcon => absurd hcon (by norm_num)⟩

/-- A 1×1 raster through all three quantizers against the black palette:
the invariant holds concretely. -/
theorem C1_witness :
    ([(⟨0, 0, 0⟩ : Rgb)] ≠ []) ∧
      ([(⟨1, 2, 3, 255⟩ : Rgba)].length ≤ 1 * 1) ∧
      ((∀ q ∈ (applySimpleQuantization
            ⟨fun _ _ _ => (0, 0, 0), fun _ _ _ => (0, 0, 0), fun _ => 0⟩
            [⟨1, 2, 3, 255⟩] [⟨0, 0, 0⟩] {}).1, OkPix [⟨0, 0, 0⟩] q) ∧
        (∀ q ∈ (applyOrderedDither
            ⟨fun _ _ _ => (0, 0, 0), fun _ _ _ => (0, 0, 0), fun _ => 0⟩
            [⟨1, 2, 3, 255⟩] 1 1 [⟨0, 0, 0⟩] "floyd" 1 {} (fun _ => 0)).1,
          OkPix [⟨0, 0, 0⟩] q) ∧
        (∀ idx, idx < 1 * 1 →
          OkPix [⟨0, 0, 0⟩]
            ((applyErrorDiffusion
              ⟨fun _ _ _ => (0, 0, 0), fun _ _ _ => (0, 0, 0), fun _ => 0⟩
              (fun _ => ⟨1, 2, 3, 255⟩) 1 1 [⟨0, 0, 0⟩] "floyd" {}).1
              idx))) :=
  ⟨by decide, by decide,
    C1_quantizer_alpha_palette
      ⟨fun _ _ _ => (0, 0, 0), fun _ _ _ => (0, 0, 0), fun _ => 0⟩
      [⟨0, 0, 0⟩] {} "floyd" 1 (fun _ => 0) [⟨1, 2, 3, 255⟩]
      (fun _ => ⟨1, 2, 3, 255⟩) 1 1 (by decide) (by decide)⟩

/-- C5: with strength 0 the ordered-dither perturbation vanishes and the
clamp is the identity on raster bytes, so `_applyOrderedDither` returns
exactly the data and `totalValidPixels` of `applySimpleQuantization`, for
every Bayer or random method. -/
theorem C5_ordered_strength_zero_is_simple (cc : ColorConv)
    (palette : List Rgb) (method : String) (opts : QuantOptions)
    (rand : ℕ → ℚ) (data : List Rgba) (width height : ℕ)
    (_hm : method = "bayer2" ∨ method = "bayer4" ∨ method = "bayer8" ∨
      method = "random")
    (hlen : data.length = width * height)
    (hpix : ∀ p ∈ data, pixIn255 p) :
    applyOrderedDither cc data width height palette method 0 opts rand =
      applySimpleQuantization cc data palette opts := by
  obtain ⟨h1, h2⟩ := orderedDither_strength_zero_aux cc palette method opts
    rand width height data 0 (by omega) hpix
  unfold applyOrderedDither applySimpleQuantization
  rw [show data.enum = data.enumFrom 0 from rfl, h1, h2]

/-- Strength-0 ordered dithering of a concrete 1×1 raster coincides with
plain quantization. -/
theorem C5_witness :
    ("bayer2" = "bayer2" ∨ "bayer2" = "bayer4" ∨ "bayer2" = "bayer8" ∨
        "bayer2" = "random") ∧
      ([(⟨10, 20, 30, 255⟩ : Rgba)].length = 1 * 1) ∧
      (∀ p ∈ [(⟨10, 20, 30, 255⟩ : Rgba)], pixIn255 p) ∧
      applyOrderedDither
          ⟨fun _ _ _ => (0, 0, 0), fun _ _ _ => (0, 0, 0), fun _ => 0⟩
          [⟨10, 20, 30, 255⟩] 1 1 [⟨0, 0, 0⟩] "bayer2" 0 {} (fun _ => 1) =
        applySimpleQuantization
          ⟨fun _ _ _ => (0, 0, 0), fun _ _ _ => (0, 0, 0), fun _ => 0⟩
          [⟨10, 20, 30, 255⟩] [⟨0, 0, 0⟩] {} :=
  have hpix : ∀ p ∈ [(⟨10, 20, 30, 255⟩ : Rgba)], pixIn255 p := by
    intro p hp
    rw [List.mem_singleton] at hp
    subst hp
    norm_num [pixIn255]
  ⟨Or.inl rfl, by decide, hpix,
    C5_ordered_strength_zero_is_simple
      ⟨fun _ _ _ => (0, 0, 0), fun _ _ _ => (0, 0, 0), fun _ => 0⟩
      [⟨0, 0, 0⟩] "bayer2" {} (fun _ => 1) [⟨10, 20, 30, 255⟩] 1 1
      (Or.inl rfl) (by decide) hpix⟩

/-- C6: when the source block feeding a destination pixel has a
strict-majority colour `(r, g, b)`, `resampleDominant` writes that colour's
4-bit bucket representative
`(((idx>>8)&15)·17, ((idx>>4)&15)·17, (idx&15)·17)` to the destination
pixel and forces its alpha to 255 (ties cannot arise under a strict
majority; the first-seen tie-break is the strict `>` of the scan). -/
theorem C6_dominant_majority (src : ℕ → ℕ × ℕ × ℕ × ℕ)
    (sw sh dstW dstH factor x y r g b : ℕ)
    (hr : r ≤ 255) (hg : g ≤ 255) (hb : b ≤ 255)
    (hx : x < dstW) (hy : y < dstH)
    (hmaj : (blockPixels src sw sh factor x y).length <
      2 * (blockPixels src sw sh factor x y).countP
        (fun p => decide (p = (r, g, b)))) :
    resampleDominant src sw sh dstW dstH factor (y * dstW + x) =
      ((r >>> 4) * 17, (g >>> 4) * 17, (b >>> 4) * 17, 255) :=
  resampleDominant_majority src sw sh dstW dstH factor x y r g b hr hg hb
    hx hy hmaj

/-- A 2×2 source block with three red pixels and one blue one, resampled
to a single destination pixel: red wins and the output is pure red with
alpha 255. -/
theorem C6_witness :
    (255 : ℕ) ≤ 255 ∧ (0 : ℕ) < 1 ∧
      resampleDominant
        (fun i => if i = 3 then (0, 0, 255, 255) else (255, 0, 0, 255))
        2 2 1 1 2 (0 * 1 + 0) =
        ((255 >>> 4) * 17, (0 >>> 4) * 17, (0 >>> 4) * 17, 255) :=
  ⟨by decide, by decide,
    C6_dominant_majority _ 2 2 1 1 2 0 0 255 0 0 (by decide) (by decide)
      (by decide) (by decide) (by decide) (by decide)⟩

/-- C8: in the diffusion loop of `_applyErrorDiffusion`, an offset landing
on an eligible in-bounds neighbour `j` adds exactly
`error · weight/divisor` there (then clamps); a work index no offset
targets is untouched; and an ineligible target is untouched — the dropped
share is never redistributed to other neighbours. -/
theorem C8_diffusion_drop_exact (width height : ℕ) (elig : ℕ → Bool)
    (x y : ℕ) (er eg eb : ℚ) (method : String) (work : ℕ → ℚ × ℚ × ℚ)
    (o : KOffset) (j j1 j2 : ℕ)
    (ho : o ∈ (getDitherKernel method).offsets)
    (hj : offTargetIdx width height x y o = some j)
    (hje : elig j = true)
    (hj1 : ∀ o2 ∈ (getDitherKernel method).offsets,
      offTargetIdx width height x y o2 ≠ some j1)
    (hj2 : elig j2 = false) :
    diffuseAll (getDitherKernel method) width height elig x y er eg eb work
        j =
      (clampByte ((work j).1 +
        er * (o.weight / (getDitherKernel method).divisor)),
       clampByte ((work j).2.1 +
        eg * (o.weight / (getDitherKernel method).divisor)),
       clampByte ((work j).2.2 +
        eb * (o.weight / (getDitherKernel method).divisor))) ∧
    diffuseAll (getDitherKernel method) width height elig x y er eg eb work
        j1 = work j1 ∧
    diffuseAll (getDitherKernel method) width height elig x y er eg eb work
        j2 = work j2 := by
  unfold diffuseAll
  refine ⟨?_, ?_, ?_⟩
  · exact diffuseFold_target hj hje (getDitherKernel method).offsets work
      (getDitherKernel_pairwise method) ho
  · exact diffuseFold_ne (getDitherKernel method).offsets work hj1
  · exact diffuseFold_inelig hj2 (getDitherKernel method).offsets work

/-- The Floyd-Steinberg kernel from pixel `(0,0)` of a 3×3 raster with
pixel 2 ineligible: the right neighbour (index 1) gets exactly `7/16` of
the error, the untargeted index 5 and the ineligible index 2 are
untouched. -/
theorem C8_witness :
    (⟨1, 0, 7⟩ : KOffset) ∈ (getDitherKernel "floyd").offsets ∧
      offTargetIdx 3 3 0 0 ⟨1, 0, 7⟩ = some 1 ∧
      decide ((1 : ℕ) ≠ 2) = true ∧
      (∀ o2 ∈ (getDitherKernel "floyd").offsets,
        offTargetIdx 3 3 0 0 o2 ≠ some 5) ∧
      decide ((2 : ℕ) ≠ 2) = false ∧
      (diffuseAll (getDitherKernel "floyd") 3 3 (fun i => decide (i ≠ 2))
          0 0 1 1 1 (fun _ => (0, 0, 0)) 1 =
        (clampByte (0 + 1 * (7 / (getDitherKernel "floyd").divisor)),
         clampByte (0 + 1 * (7 / (getDitherKernel "floyd").divisor)),
         clampByte (0 + 1 * (7 / (getDitherKernel "floyd").divisor))) ∧
       diffuseAll (getDitherKernel "floyd") 3 3 (fun i => decide (i ≠ 2))
          0 0 1 1 1 (fun _ => (0, 0, 0)) 5 = (0, 0, 0) ∧
       diffuseAll (getDitherKernel "floyd") 3 3 (fun i => decide (i ≠ 2))
          0 0 1 1 1 (fun _ => (0, 0, 0)) 2 = (0, 0, 0)) :=
  ⟨by decide, by decide, by decide, by decide, by decide,
    C8_diffusion_drop_exact 3 3 (fun i => decide (i ≠ 2)) 0 0 1 1 1 "floyd"
      (fun _ => (0, 0, 0)) ⟨1, 0, 7⟩ 1 5 2 (by decide) (by decide)
      (by decide) (by decide) (by decide)⟩

/-- C9 (amended): the instance caches are NOT all capped.  On the distance
path of `resolveColor` the insertion is followed by the
`size > 20000 → clear()` check, giving the clear-wholesale formula below;
but the exact-match and white-pixel paths insert with no size check, and
`_getLab` never checks at all: its cache either hits (unchanged) or grows
by one without bound — the declared `COLOR_CACHE_LIMIT = 15000` is never
read anywhere.  The counterexample grows `_labCache` to 20,001 entries,
beyond the claimed 15,000-20,000 cap. -/
theorem C9_cache_bounds (cc : ColorConv) (cache : ColorCache) (t : Rgb)
    (pal : List PalEntry) (opts : ResolveOptions)
    (labFn : ℕ → ℕ → ℕ → ℚ × ℚ × ℚ) (lcache : LabCache) (r g b : ℕ)
    (hmiss : cacheLookup
      { rgb := t, algorithm := opts.algorithm,
        chroma := opts.enableChromaPenalty,
        weight := opts.chromaPenaltyWeight,
        exactMatch := opts.exactMatch } cache = none)
    (hexact : opts.exactMatch = false)
    (hwhite : ¬(opts.whiteThreshold ≤ t.r ∧ opts.whiteThreshold ≤ t.g ∧
      opts.whiteThreshold ≤ t.b))
    (hpal : pal ≠ []) :
    ((resolveColor cc cache t pal opts).2).length =
      (if 20000 < cache.length + 1 then 0 else cache.length + 1) ∧
    ((getLab labFn lcache r g b).2 = lcache ∨
      (getLab labFn lcache r g b).2.length = lcache.length + 1) := by
  constructor
  · obtain ⟨c0, rest, rfl⟩ := List.exists_cons_of_ne_nil hpal
    simp only [resolveColor]
    rw [if_neg (List.cons_ne_nil c0 rest), hmiss]
    simp only [hexact]
    rw [if_neg (by decide : ¬(false = true))]
    rw [if_neg hwhite]
    simp only [List.length_cons]
    split_ifs <;> rfl
  · simp only [getLab]
    cases hl : labCacheLookup (labKey r g b) lcache with
    | some v => exact Or.inl rfl
    | none => exact Or.inr (by simp)

/-- A first `resolveColor` distance-path call on an empty cache grows it
to one entry, and a first `_getLab` call grows its cache by one. -/
theorem C9_witness :
    cacheLookup
        { rgb := ⟨0, 0, 0⟩, algorithm := "lab", chroma := false,
          weight := 0.15, exactMatch := false } [] = none ∧
      ((resolveColor
          ⟨fun _ _ _ => (0, 0, 0), fun _ _ _ => (0, 0, 0), fun _ => 0⟩
          [] ⟨0, 0, 0⟩ [⟨1, ⟨0, 0, 0⟩⟩] {}).2).length =
        (if 20000 < List.length ([] : ColorCache) + 1 then 0
          else List.length ([] : ColorCache) + 1) ∧
      ((getLab (fun _ _ _ => (0, 0, 0)) [] 0 0 0).2 = [] ∨
        (getLab (fun _ _ _ => (0, 0, 0)) [] 0 0 0).2.length =
          List.length ([] : LabCache) + 1) :=
  have happ := C9_cache_bounds
    ⟨fun _ _ _ => (0, 0, 0), fun _ _ _ => (0, 0, 0), fun _ => 0⟩
    [] ⟨0, 0, 0⟩ [⟨1, ⟨0, 0, 0⟩⟩] {} (fun _ _ _ => (0, 0, 0)) [] 0 0 0
    rfl rfl
    (by show ¬((230 : ℚ) ≤ 0 ∧ (230 : ℚ) ≤ 0 ∧ (230 : ℚ) ≤ 0); norm_num)
    (List.cons_ne_nil _ _)
  ⟨rfl, happ.1, happ.2⟩

theorem getLab_miss (labFn : ℕ → ℕ → ℕ → ℚ × ℚ × ℚ) (cache : LabCache)
    (r g b : ℕ) (h : labCacheLookup (labKey r g b) cache = none) :
    (getLab labFn cache r g b).2 = (labKey r g b, labFn r g b) :: cache := by
  simp only [getLab]
  rw [h]

/-- C9 counterexample: 20,000 distinct `_getLab` calls build a
20,000-entry LAB cache, and the next distinct colour grows it to 20,001 —
past the claimed 15,000-20,000 hard cap; `_getLab` never clears. -/
theorem C9_counterexample :
    ((getLab (fun _ _ _ => ((0 : ℚ), (0 : ℚ), (0 : ℚ)))
        (labCacheIter (fun _ _ _ => ((0 : ℚ), (0 : ℚ), (0 : ℚ))) 20000)
        0 78 32).2).length = 20001 := by
  obtain ⟨hlen, hkeys⟩ :=
    labCacheIter_spec (fun _ _ _ => ((0 : ℚ), (0 : ℚ), (0 : ℚ))) 20000
      (by norm_num)
  have hkey : labKey 0 78 32 = 20000 := by
    have h := labKey_pack 20000 (by norm_num)
    norm_num at h
    exact h
  have hmiss : labCacheLookup (labKey 0 78 32)
      (labCacheIter (fun _ _ _ => ((0 : ℚ), (0 : ℚ), (0 : ℚ))) 20000) =
        none := by
    rw [hkey]
    exact labCacheLookup_none 20000 _ (fun kv hkv => by
      have := hkeys kv hkv
      omega)
  rw [getLab_miss _ _ _ _ _ hmiss, List.length_cons, hlen]

/-- C10: every diffusion write clamps each channel into `[0, 255]`
immediately (`diffuse`), so at every stage of the error-diffusion scan the
whole work buffer lies in `[0, 255]³` — in particular the `(r, g, b)`
triple `edStep` hands to `findClosestPaletteColor` at any pixel; error
beyond that range is silently lost to saturation. -/
theorem C10_work_buffer_clamped (cc : ColorConv) (palette : List Rgb)
    (method : String) (opts : QuantOptions) (width height : ℕ)
    (img : ℕ → Rgba) (himg : ∀ i, pixIn255 (img i)) (k : ℕ) :
    workInRange
      (edStateAfter cc palette method opts width height img k).work :=
  edStateAfter_work_range cc palette method opts width height img himg k

/-- The clamp invariant on a concrete 1×1 black raster after one scan
step. -/
theorem C10_witness :
    (∀ i : ℕ, pixIn255 ((fun _ => (⟨0, 0, 0, 255⟩ : Rgba)) i)) ∧
      workInRange
        (edStateAfter
          ⟨fun _ _ _ => (0, 0, 0), fun _ _ _ => (0, 0, 0), fun _ => 0⟩
          [⟨0, 0, 0⟩] "floyd" {} 1 1 (fun _ => ⟨0, 0, 0, 255⟩) 1).work :=
  have himg : ∀ i : ℕ, pixIn255 ((fun _ => (⟨0, 0, 0, 255⟩ : Rgba)) i) := by
    intro i
    norm_num [pixIn255]
  ⟨himg, C10_work_buffer_clamped
    ⟨fun _ _ _ => (0, 0, 0), fun _ _ _ => (0, 0, 0), fun _ => 0⟩
    [⟨0, 0, 0⟩] "floyd" {} 1 1 (fun _ => ⟨0, 0, 0, 255⟩) himg 1⟩

/-- C7 (amended): with threshold 1 no opaque component has size below the
threshold, so `simplifyRegions` returns the raster unchanged — in
particular it is idempotent at that threshold.  Idempotence fails for
larger thresholds (see the counterexample): components are recomputed on
the partially repainted buffer and already-visited border pixels are
skipped, so a second pass can repaint further. -/
theorem C7_region_threshold_one_identity (img : ℕ → ℕ × ℕ × ℕ × ℕ)
    (width height : ℕ) :
    simplifyRegions img width height 1 = img :=
  simplifyRegions_minArea_one img width height

/-- C7 counterexample to idempotence: on the 3×1 raster
`[red, blue, green]` with threshold 2, one pass yields
`[blue, green, green]` but a second pass repaints pixel 0 green:
`f (f x) ≠ f x` at pixel 0. -/
theorem C7_counterexample :
    simplifyRegions
        (simplifyRegions
          (fun i => if i = 0 then (255, 0, 0, 255)
            else if i = 1 then (0, 0, 255, 255) else (0, 255, 0, 255))
          3 1 2) 3 1 2 0 ≠
      simplifyRegions
        (fun i => if i = 0 then (255, 0, 0, 255)
          else if i = 1 then (0, 0, 255, 255) else (0, 255, 0, 255))
        3 1 2 0 := by
  decide

end PatPlacer
